import Mathlib

/-!
Verification of the generic-aware type/relationship extractor of the
`cargo-invoke` repository (src/bin/connections.rs, not_state_diagram.rs,
state_diagram.rs, class_diagram.rs, diagram.rs).

Strings are modelled as `List Char`.  Rust `&str` slicing works on BYTE
indices while several loops in the source count CHARS, so the model keeps
track of UTF-8 byte widths explicitly: `byteSlice` returns `none` exactly
when the Rust slice expression would panic (out of range or not on a char
boundary).  All fallible model functions return `Option`; `none` models a
panic of the original program.
-/

namespace CargoInvoke

/-- UTF-8 encoded width in bytes of a character, as Rust `char::len_utf8`. -/
def byteWidth (c : Char) : Nat :=
  if c.toNat < 0x80 then 1
  else if c.toNat < 0x800 then 2
  else if c.toNat < 0x10000 then 3
  else 4

/-- Total UTF-8 byte length of a string, as Rust `str::len`. -/
def utf8Len (l : List Char) : Nat := (l.map byteWidth).sum

/-- Whitespace test used by Rust `trim`/`trim_start`; modelled for the ASCII
whitespace characters (tab, LF, VT, FF, CR, space). -/
def isWsChar (c : Char) : Bool := c.toNat = 9 ∨ c.toNat = 10 ∨ c.toNat = 11
  ∨ c.toNat = 12 ∨ c.toNat = 13 ∨ c.toNat = 32

/-- Rust `str::trim_start`. -/
def trimStart (l : List Char) : List Char := l.dropWhile isWsChar

/-- Rust `str::trim` (both ends). -/
def trimL (l : List Char) : List Char :=
  ((l.dropWhile isWsChar).reverse.dropWhile isWsChar).reverse

/-- Rust `s.starts_with(prefix)` on strings, char by char. -/
def lstartsWith : List Char → List Char → Bool
  | [], _ => true
  | _ :: _, [] => false
  | p :: ps, c :: cs => p = c && lstartsWith ps cs

/-- Drop a prefix of exactly `a` BYTES; `none` when `a` overshoots the list
or falls inside a character (Rust slice panic). -/
def dropBytes : List Char → Nat → Option (List Char)
  | l, 0 => some l
  | [], _ + 1 => none
  | c :: rest, a + 1 =>
      if byteWidth c ≤ a + 1 then dropBytes rest (a + 1 - byteWidth c) else none

/-- Take a prefix of exactly `n` BYTES; `none` when `n` overshoots the list
or falls inside a character (Rust slice panic). -/
def takeBytes : List Char → Nat → Option (List Char)
  | _, 0 => some []
  | [], _ + 1 => none
  | c :: rest, n + 1 =>
      if byteWidth c ≤ n + 1 then
        (takeBytes rest (n + 1 - byteWidth c)).map (c :: ·)
      else none

/-- Rust `&s[a..b]` byte slicing; `none` models the panic on a reversed
range, an out-of-range index or a non-char-boundary index. -/
def byteSlice (l : List Char) (a b : Nat) : Option (List Char) :=
  if a ≤ b then (dropBytes l a).bind (takeBytes · (b - a)) else none

/-- Byte index of the first `<` of the string (Rust `s.find('<')`). -/
def findLtByte : List Char → Option Nat
  | [] => none
  | c :: rest =>
      if c = '<' then some 0 else (findLtByte rest).map (byteWidth c + ·)

/-- The characters after the first `<` of the string; in the source this is
the slice `result[start + 1..]`, whose start is always a char boundary. -/
def afterLt : List Char → Option (List Char)
  | [] => none
  | c :: rest => if c = '<' then some rest else afterLt rest

/-- Depth-counting scan of the source (connections.rs lines 29-40): walking
the characters after the opening `<`, each nested `<` increments the depth,
a `>` at depth 0 is the match, any other `>` decrements.  Returns the CHAR
index of the matching `>` (the source adds this char count to a byte
index — that mix-up is preserved). -/
def scanMatch : Nat → List Char → Option Nat
  | _, [] => none
  | d, c :: rest =>
      if c = '<' then (scanMatch (d + 1) rest).map (· + 1)
      else if c = '>' then
        if d = 0 then some 0 else (scanMatch (d - 1) rest).map (· + 1)
      else (scanMatch d rest).map (· + 1)

/-- The `while ty.starts_with('&') { ty = ty[1..].trim_start(); }` loop of
`unwrap_type`: after each stripped `&` the start is trimmed again. -/
def ampSkip : List Char → List Char
  | [] => []
  | c :: rest =>
      if isWsChar c then ampSkip rest
      else if c = '&' then ampSkip rest
      else c :: rest

/-- Entry point of the reference-sigil stripping of `unwrap_type`. -/
def stripAmps (l : List Char) : List Char :=
  match l with
  | '&' :: rest => ampSkip rest
  | _ => l

/-- Char index of the start of the LAST occurrence of `::`
(Rust `s.rfind("::")`; `:` is one byte, so char and byte index agree
for the characters at and after the match). -/
def rfindColons : List Char → Option Nat
  | [] => none
  | a :: rest =>
      match rfindColons rest with
      | some j => some (j + 1)
      | none => if a = ':' ∧ rest.head? = some ':' then some 0 else none

/-- The final qualifier stripping of `unwrap_type` (lines 52-54): keep only
the substring after the last `::`. -/
def stripColons (l : List Char) : List Char :=
  match rfindColons l with
  | none => l
  | some i => l.drop (i + 2)

/-- The wrapper vocabulary of `unwrap_type` (connections.rs lines 17-19),
in array order. -/
def wrappersL : List (List Char) :=
  [['O','p','t','i','o','n'], ['R','e','s','u','l','t'], ['B','o','x'],
   ['A','r','c'], ['R','c'], ['M','u','t','e','x'],
   ['H','a','s','h','S','e','t'], ['V','e','c'], ['H','a','s','h','M','a','p']]

/-- First wrapper `w` of the vocabulary (in array order) such that the
string starts with `w<`, as the inner `for` loop of `unwrap_type`. -/
def findWrapper (r : List Char) : Option (List Char) :=
  wrappersL.find? (fun w => lstartsWith (w ++ ['<']) r)

/-- Fuel-indexed model of `unwrap_type` (connections.rs lines 11-56 and the
identical copy in not_state_diagram.rs lines 9-52).  The flag selects the
whole function (`true`: trim, strip `&`, loop, strip `::`, trim) or the
`'outer` loop alone (`false`).  `none` models a panic; fuel 0 also returns
`none`, but `unwrap_type` below supplies fuel that is never exhausted (each
recursive call is on a strictly shorter string). -/
def uw : Nat → Bool → List Char → Option (List Char)
  | 0, _, _ => none
  | n + 1, true, ty =>
      match uw n false (stripAmps (trimL ty)) with
      | none => none
      | some r => some (trimL (stripColons r))
  | n + 1, false, r =>
      match findWrapper r with
      | none => some r
      | some _ =>
          match findLtByte r, afterLt r with
          | some start, some tail =>
              let endB := start + 1 + (scanMatch 0 tail).getD 0
              match byteSlice r (start + 1) endB with
              | none => none
              | some inside =>
                  match uw n true inside with
                  | none => none
                  | some r2 => uw n false r2
          | _, _ => some r

/-- Model of `unwrap_type`: `2 * length + 4` fuel is enough for every input
because every recursive call of `uw` strictly decreases the string. -/
def unwrap_type (ty : List Char) : Option (List Char) :=
  uw (2 * ty.length + 4) true ty

/-- CHAR indices of the commas that sit at bracket depth 0, as the comma
loop of `extract_all_inner_types` (connections.rs lines 90-104).  The
depth is an `i32` there and may go negative, hence `Int`. -/
def commaIdxs : Int → Nat → List Char → List Nat
  | _, _, [] => []
  | d, i, c :: rest =>
      if c = '<' then commaIdxs (d + 1) (i + 1) rest
      else if c = '>' then commaIdxs (d - 1) (i + 1) rest
      else if c = ',' ∧ d = 0 then i :: commaIdxs d (i + 1) rest
      else commaIdxs d (i + 1) rest

/-- Cut `inside` at the given comma indices, as the source does: every
middle segment `inside[last_pos..i].trim()` is pushed even when empty, the
final segment `inside[last_pos..].trim()` only when non-empty.  The source
slices at BYTE positions using CHAR indices; `byteSlice` reproduces the
panic (`none`) this causes on multibyte text. -/
def segsFromIdxs (inside : List Char) : List Nat → Nat → Option (List (List Char))
  | [], lastPos =>
      match byteSlice inside lastPos (utf8Len inside) with
      | none => none
      | some seg =>
          let s := trimL seg
          some (if s = [] then [] else [s])
  | i :: rest, lastPos =>
      match byteSlice inside lastPos i with
      | none => none
      | some seg => (segsFromIdxs inside rest (i + 1)).map (trimL seg :: ·)

/-- Top-level comma split of the generic-argument text. -/
def splitSegs (inside : List Char) : Option (List (List Char)) :=
  segsFromIdxs inside (commaIdxs 0 0 inside) 0

/-- Fuel-indexed model of `extract_all_inner_types` (connections.rs lines
64-128, identical copy in not_state_diagram.rs lines 55-106).  Note the
source collects `ty.chars()` into a vector and slices it at the BYTE index
`start + 1` (`chars[start + 1..]`), which panics when that index exceeds
the char count; the guard below reproduces this. -/
def extractFuel : Nat → List Char → Option (List (List Char))
  | 0, _ => none
  | n + 1, ty =>
      let segs? : Option (List (List Char)) :=
        match findLtByte ty with
        | none => some []
        | some start =>
            if ty.length < start + 1 then none
            else
              let tail := ty.drop (start + 1)
              let endB := start + 1 + (scanMatch 0 tail).getD 0
              match byteSlice ty (start + 1) endB with
              | none => none
              | some inside => splitSegs inside
      match segs? with
      | none => none
      | some [] =>
          match unwrap_type ty with
          | none => none
          | some u => some [u]
      | some segs =>
          segs.foldl
            (fun acc? sub =>
              match acc?, extractFuel n sub with
              | some acc, some deeper => some (acc ++ deeper)
              | _, _ => none)
            (some [])

/-- Model of `extract_all_inner_types`: `length + 1` fuel is enough because
every recursive call is on a strict substring. -/
def extract_all_inner_types (ty : List Char) : Option (List (List Char)) :=
  extractFuel (ty.length + 1) ty

/-- Short hand turning a string literal into the `List Char` model type. -/
def strL (s : String) : List Char := s.data

/-- A relationship edge as the triple (source, label, target). -/
abbrev Edge := List Char × List Char × List Char

/-- Per-field edge derivation of connections.rs `main` (lines 181-193) and
not_state_diagram.rs `main` (lines 143-152): every leaf type found by
`extract_all_inner_types` that is a known class yields one `has` edge,
pushed in leaf order. -/
def deriveFieldEdges (structName fieldTypeRaw : List Char)
    (knownClasses : List (List Char)) : Option (List Edge) :=
  match extract_all_inner_types (trimL fieldTypeRaw) with
  | none => none
  | some typesFound =>
      some (typesFound.foldl
        (fun acc t =>
          if t ∈ knownClasses then acc ++ [(structName, strL "has", t)] else acc)
        [])

/-- Per-method edge derivation of connections.rs `main` (lines 209-227):
methods named `new` are skipped; otherwise a non-empty declared return type
is reduced with `unwrap_type` (a single leaf, not the all-leaves splitter)
and one edge labelled with the method name is pushed when that leaf is a
known class. -/
def deriveMethodEdges (structName fnName retTyRaw : List Char)
    (knownClasses : List (List Char)) : Option (List Edge) :=
  if fnName = strL "new" then some []
  else if retTyRaw = [] then some []
  else
    match unwrap_type retTyRaw with
    | none => none
    | some simplified =>
        some (if simplified ∈ knownClasses
          then [(structName, fnName, simplified)] else [])

/-- One output line of the connections.rs emitter (line 237):
`writeln!(file, "    {} --> |{}| {}", a, label, b)`. -/
def connLine (e : Edge) : List Char :=
  strL "    " ++ e.1 ++ strL " --> |" ++ e.2.1 ++ strL "| " ++ e.2.2 ++ strL "\n"

/-- The full text the connections.rs emitter (lines 231-238) writes: the
header, a blank line, then one line per edge of the `relationships` vector
in insertion order — no deduplication, no sorting. -/
def connectionsOutput (relationships : List Edge) : List Char :=
  strL "graph LR\n" ++ strL "\n"
    ++ relationships.foldl (fun acc e => acc ++ connLine e) []

/-- Model of a Rust `HashSet` insertion for the purpose of membership and
deduplication: add the element only when absent.  (The iteration order of a
real `HashSet` is unspecified; claims proved through this model only use
membership and the no-duplicates property, which are order independent.) -/
def insert1 {α : Type} [DecidableEq α] (s : List α) (a : α) : List α :=
  if a ∈ s then s else s ++ [a]

/-- A `Relationship` of class_diagram.rs (lines 25-30); `from`/`to` are
keywords in Lean, hence the underscores. -/
structure Relationship where
  from_ : List Char
  to_ : List Char
  relationship_type : List Char
deriving DecidableEq

/-- A `TypeInfo` of class_diagram.rs (lines 51-55). -/
structure TypeInfo where
  base_type : List Char
  generic_params : List (List Char)

/-- The repeated-prefix stripping `trim_start_matches("mut ")` used in
class_diagram.rs line 221. -/
def stripMutPrefix : List Char → List Char
  | 'm' :: 'u' :: 't' :: ' ' :: rest => stripMutPrefix rest
  | l => l

/-- class_diagram.rs `parse_type_with_generics` (lines 210-231): split the
raw type string on every `<`, the first part is the base type; when generic
text exists, drop all trailing `>` of the second part and split it on every
comma, cleaning each parameter of whitespace, leading `&`s and leading
`mut `s. -/
def parse_type_with_generics (type_str : List Char) : TypeInfo :=
  let parts := type_str.splitOn '<'
  let base_type := trimL (parts.headI)
  if 1 < parts.length then
    let generic_part := ((parts.get? 1).getD []).reverse.dropWhile (· = '>') |>.reverse
    let generic_params := (generic_part.splitOn ',').map
      (fun param => stripMutPrefix ((trimL param).dropWhile (· = '&')))
    ⟨base_type, generic_params⟩
  else ⟨base_type, []⟩

/-- The edges class_diagram.rs `extract_relationships` (lines 156-205)
inserts for one field of one struct: a `has` edge when the base type is a
known enum (then nothing else — `continue`) or a known struct; additionally
for the container bases `Option`/`Vec`/`HashMap` a `uses` edge and one
`contains` edge per generic parameter that is a known struct or enum. -/
def fieldRelationships (structNames enumNames : List (List Char))
    (structName fieldType : List Char) (acc : List Relationship) : List Relationship :=
  let ti := parse_type_with_generics fieldType
  if ti.base_type ∈ enumNames then
    insert1 acc ⟨structName, ti.base_type, strL "has"⟩
  else
    let acc1 :=
      if ti.base_type ∈ structNames then
        insert1 acc ⟨structName, ti.base_type, strL "has"⟩
      else acc
    if ti.base_type = strL "Option" ∨ ti.base_type = strL "Vec"
        ∨ ti.base_type = strL "HashMap" then
      let acc2 := insert1 acc1 ⟨structName, ti.base_type, strL "uses"⟩
      ti.generic_params.foldl
        (fun a g =>
          if g ∈ structNames ∨ g ∈ enumNames then
            insert1 a ⟨structName, g, strL "contains"⟩
          else a)
        acc2
    else acc1

/-- A struct of class_diagram.rs restricted to what `extract_relationships`
reads: its name and its fields' (name, type string) pairs. -/
structure StructInfo where
  name : List Char
  fields : List (List Char × List Char)

/-- class_diagram.rs `extract_relationships` (lines 151-208) over the
collected structs and enum names, building the `HashSet<Relationship>`
(modelled as a duplicate-free list). -/
def extract_relationships (structs : List StructInfo)
    (enumNames : List (List Char)) : List Relationship :=
  let structNames := structs.map (·.name)
  structs.foldl
    (fun acc s =>
      s.fields.foldl
        (fun acc f => fieldRelationships structNames enumNames s.name f.2 acc)
        acc)
    []

/-- A struct of diagram.rs restricted to what the relationship pass of
`generate_mermaid` reads: name and fields' (name, raw type string) pairs. -/
structure DStructDef where
  name : List Char
  fields : List (List Char × List Char)

/-- Rust `haystack.contains(pattern)` substring test (diagram.rs line 110).
Byte-level substring search on valid UTF-8 coincides with the char-level
search modelled here, because a match can neither start nor end inside a
multibyte character when the pattern itself is valid UTF-8. -/
def containsSub (hay pat : List Char) : Bool :=
  if lstartsWith pat hay then true
  else
    match hay with
    | [] => false
    | _ :: rest => containsSub rest pat

/-- One relationship line of diagram.rs `generate_mermaid` (line 112):
`format!("    {} --> {} : has\n", struct_def.name, other_struct.name)`. -/
def dRelLine (a b : List Char) : List Char :=
  strL "    " ++ a ++ strL " --> " ++ b ++ strL " : has\n"

/-- The relationship lines diagram.rs `generate_mermaid` (lines 107-117)
inserts into its `HashSet<String>`: for every struct, every field and every
(other) struct whose name occurs as a substring of the field's raw type
string, the formatted `has` line.  No unwrapping is applied. -/
def generateRelLines (structs : List DStructDef) : List (List Char) :=
  structs.foldl
    (fun acc sd =>
      sd.fields.foldl
        (fun acc f =>
          structs.foldl
            (fun acc os =>
              if containsSub f.2 os.name then insert1 acc (dRelLine sd.name os.name)
              else acc)
            acc)
        acc)
    []

mutual
/-- Model of `syn::Type` restricted to the shapes state_diagram.rs
`extract_types_recursive` (lines 173-221) distinguishes: a path (list of
segments, each an identifier with its angle-bracketed type arguments), a
reference, a tuple, an array, a parenthesised type, or anything else.
The segment list and type-argument list are encoded as the mutual
inductives `SegList` and `TyList` (isomorphic to `List`), which keeps the
recursion over this syntax tree plainly structural. -/
inductive SynType where
  | path (segments : SegList)
  | ref (elem : SynType)
  | tuple (elems : TyList)
  | array (elem : SynType)
  | paren (elem : SynType)
  | other

inductive SegList where
  | nil
  | cons (ident : List Char) (args : TyList) (rest : SegList)

inductive TyList where
  | nil
  | cons (head : SynType) (rest : TyList)
end

/-- A path with a single segment, as produced by syn for a plain
`Name<Args>` type. -/
def synPath1 (ident : List Char) (args : TyList) : SynType :=
  SynType.path (SegList.cons ident args SegList.nil)

/-- state_diagram.rs `is_collection_type` (lines 224-229). -/
def is_collection_type (ty : List Char) : Bool :=
  ty ∈ [strL "Vec", strL "HashMap", strL "HashSet", strL "BTreeMap",
        strL "BTreeSet", strL "Option", strL "Box"]

/-- state_diagram.rs `is_external_type` (lines 232-241). -/
def is_external_type (ty : List Char) : Bool :=
  ty ∈ [strL "Vec", strL "HashMap", strL "HashSet", strL "Option",
        strL "Result", strL "Box", strL "Rc", strL "Arc", strL "Mutex",
        strL "RefCell", strL "String", strL "BTreeMap", strL "BTreeSet"]

mutual
/-- state_diagram.rs `extract_types_recursive` (lines 173-221): pushes type
identifiers onto `types` and raises the sticky `is_collection` flag when a
collection name is seen; for a path only the LAST segment is examined:
a collection segment only recurses into its generic arguments, any other
segment is pushed and then its generic arguments are visited. -/
def extractTypesRec : SynType → List (List Char) → Bool → List (List Char) × Bool
  | SynType.path segs, types, isColl => extractPath segs types isColl
  | SynType.ref e, types, isColl => extractTypesRec e types isColl
  | SynType.tuple es, types, isColl => extractTypesList es types isColl
  | SynType.array e, types, isColl => extractTypesRec e types isColl
  | SynType.paren e, types, isColl => extractTypesRec e types isColl
  | SynType.other, types, isColl => (types, isColl)

/-- Walk to the last path segment (the source's `path.segments.last()`)
and process it as `extract_types_recursive` does. -/
def extractPath : SegList → List (List Char) → Bool → List (List Char) × Bool
  | SegList.nil, types, isColl => (types, isColl)
  | SegList.cons ident args SegList.nil, types, isColl =>
      if is_collection_type ident then extractTypesList args types true
      else extractTypesList args (types ++ [ident]) isColl
  | SegList.cons _ _ (SegList.cons i2 a2 rest), types, isColl =>
      extractPath (SegList.cons i2 a2 rest) types isColl

/-- Visit a list of generic arguments / tuple elements in order, threading
the accumulators (the `&mut` parameters of the source). -/
def extractTypesList : TyList → List (List Char) → Bool → List (List Char) × Bool
  | TyList.nil, types, isColl => (types, isColl)
  | TyList.cons e rest, types, isColl =>
      let p := extractTypesRec e types isColl
      extractTypesList rest p.1 p.2
end

/-- state_diagram.rs `extract_types_from_type` (lines 165-170). -/
def extract_types_from_type (ty : SynType) : List (List Char) × Bool :=
  extractTypesRec ty [] false

/-- state_diagram.rs `get_field_relationship` (lines 130-162): the first
extracted type that is not external and is a known struct wins, giving a
single (field name, target, cardinality) answer; the cardinality marker is
`||--o{` (one-to-many, per the source comments) when the sticky collection
flag was raised, `||--||` (one-to-one) otherwise. -/
def get_field_relationship (fieldIdent : Option (List Char)) (fieldTy : SynType)
    (struct_names : List (List Char)) : Option (List Char × List Char × List Char) :=
  let field_name := fieldIdent.getD (strL "unnamed_field")
  let r := extract_types_from_type fieldTy
  match r.1.find? (fun ty => !is_external_type ty && struct_names.contains ty) with
  | none => none
  | some ty =>
      some (field_name, ty,
        if r.2 then strL "||--o\x7b" else strL "||--||")

/-- A `StructRelationship` of state_diagram.rs (lines 11-16). -/
structure StructRelationship where
  source : List Char
  field : List Char
  target : List Char
  cardinality : List Char
deriving DecidableEq

/-- A struct item of the parsed file as state_diagram.rs reads it: its name
and its fields (optional identifier and type). -/
structure SynStruct where
  name : List Char
  fields : List (Option (List Char) × SynType)

/-- state_diagram.rs `extract_struct_relationships` (lines 101-126) over
the struct items of the file. -/
def extract_struct_relationships (structs : List SynStruct)
    (struct_names : List (List Char)) : List StructRelationship :=
  structs.foldl
    (fun acc s =>
      s.fields.foldl
        (fun acc f =>
          match get_field_relationship f.1 f.2 struct_names with
          | none => acc
          | some (fieldName, target, card) =>
              acc ++ [⟨s.name, fieldName, target, card⟩])
        acc)
    []

/-- Specification-side notion of a plain identifier character (ASCII
digit, ASCII letter or underscore), given by code point ranges. -/
def isIdentChar (c : Char) : Bool :=
  (48 ≤ c.toNat ∧ c.toNat ≤ 57) ∨ (65 ≤ c.toNat ∧ c.toNat ≤ 90)
    ∨ (97 ≤ c.toNat ∧ c.toNat ≤ 122) ∨ c.toNat = 95

/-! ## Generic helper lemmas -/

theorem mem_insert1 {α : Type} [DecidableEq α] {s : List α} {a b : α} :
    b ∈ insert1 s a ↔ b ∈ s ∨ b = a := by
  unfold insert1
  split
  · rename_i h
    constructor
    · exact Or.inl
    · rintro (hb | rfl)
      · exact hb
      · exact h
  · simp

theorem nodup_insert1 {α : Type} [DecidableEq α] {s : List α} (h : s.Nodup)
    (a : α) : (insert1 s a).Nodup := by
  unfold insert1
  split
  · exact h
  · rename_i ha
    simpa [List.nodup_append, h] using ha

theorem nodup_foldl_of_step {α β : Type} (step : List β → α → List β)
    (hstep : ∀ acc a, acc.Nodup → (step acc a).Nodup) :
    ∀ (l : List α) (acc : List β), acc.Nodup → (l.foldl step acc).Nodup := by
  intro l
  induction l with
  | nil => intro acc h; simpa using h
  | cons x xs ih =>
      intro acc h
      simpa using ih (step acc x) (hstep acc x h)

theorem mem_foldl_of_step {α β : Type} (step : List β → α → List β)
    (Q : α → β → Prop)
    (h : ∀ acc a b, b ∈ step acc a ↔ b ∈ acc ∨ Q a b) :
    ∀ (l : List α) (acc : List β) (b : β),
      b ∈ l.foldl step acc ↔ b ∈ acc ∨ ∃ a ∈ l, Q a b := by
  intro l
  induction l with
  | nil => intro acc b; simp
  | cons x xs ih =>
      intro acc b
      rw [List.foldl_cons, ih, h]
      constructor
      · rintro ((hb | hq) | ⟨a, ha, hq⟩)
        · exact Or.inl hb
        · exact Or.inr ⟨x, by simp, hq⟩
        · exact Or.inr ⟨a, by simp [ha], hq⟩
      · rintro (hb | ⟨a, ha, hq⟩)
        · exact Or.inl (Or.inl hb)
        · rcases List.mem_cons.mp ha with rfl | ha
          · exact Or.inl (Or.inr hq)
          · exact Or.inr ⟨a, ha, hq⟩

theorem foldl_cond_append {α β : Type} (P : α → Prop) [DecidablePred P] (f : α → β) :
    ∀ (l : List α) (acc : List β),
      l.foldl (fun acc t => if P t then acc ++ [f t] else acc) acc
        = acc ++ (l.filter (fun t => decide (P t))).map f := by
  intro l
  induction l with
  | nil => intro acc; simp
  | cons x xs ih =>
      intro acc
      rw [List.foldl_cons, ih]
      by_cases hp : P x <;> simp [hp]

theorem lstartsWith_iff : ∀ (p l : List Char), lstartsWith p l = true ↔ p <+: l := by
  intro p
  induction p with
  | nil => intro l; simp [lstartsWith]
  | cons a ps ih =>
      intro l
      cases l with
      | nil => simp [lstartsWith]
      | cons c cs => simp [lstartsWith, List.cons_prefix_cons, ih]

theorem containsSub_iff : ∀ (hay pat : List Char),
    containsSub hay pat = true ↔ pat <:+: hay := by
  intro hay
  induction hay with
  | nil =>
      intro pat
      cases pat with
      | nil => simp [containsSub, lstartsWith]
      | cons c cs => simp [containsSub, lstartsWith]
  | cons c cs ih =>
      intro pat
      rw [List.infix_cons_iff]
      by_cases h : lstartsWith pat (c :: cs)
      · simp only [containsSub, h, if_true, true_iff]
        exact Or.inl ((lstartsWith_iff _ _).mp h)
      · have hrw : containsSub (c :: cs) pat = containsSub cs pat := by
          simp [containsSub, h]
        rw [hrw, ih]
        constructor
        · exact Or.inr
        · rintro (hp | hi)
          · exact absurd ((lstartsWith_iff _ _).mpr hp) h
          · exact hi

/-! ## Character-class and trimming lemmas -/

theorem identChar_facts {c : Char} (h : isIdentChar c = true) :
    c ≠ '<' ∧ c ≠ '>' ∧ c ≠ '&' ∧ c ≠ ':' ∧ isWsChar c = false ∧ c.toNat < 128 := by
  have hr : (48 ≤ c.toNat ∧ c.toNat ≤ 57) ∨ (65 ≤ c.toNat ∧ c.toNat ≤ 90)
      ∨ (97 ≤ c.toNat ∧ c.toNat ≤ 122) ∨ c.toNat = 95 := by
    simpa [isIdentChar] using h
  refine ⟨?_, ?_, ?_, ?_, ?_, by omega⟩
  · rintro rfl; exact absurd hr (by decide)
  · rintro rfl; exact absurd hr (by decide)
  · rintro rfl; exact absurd hr (by decide)
  · rintro rfl; exact absurd hr (by decide)
  · simp only [isWsChar]
    simp only [decide_eq_false_iff_not]
    omega

theorem dropWhile_eq_self_of_all {p : Char → Bool} {l : List Char}
    (h : ∀ c ∈ l, p c = false) : l.dropWhile p = l := by
  cases l with
  | nil => rfl
  | cons c rest => simp [List.dropWhile_cons, h c (by simp)]

theorem trimL_eq_self_of_all {l : List Char}
    (h : ∀ c ∈ l, isWsChar c = false) : trimL l = l := by
  unfold trimL
  rw [dropWhile_eq_self_of_all h,
    dropWhile_eq_self_of_all (fun c hc => h c (by simpa using hc)),
    List.reverse_reverse]

theorem stripAmps_eq_self {l : List Char} (h : l.head? ≠ some '&') :
    stripAmps l = l := by
  cases l with
  | nil => rfl
  | cons c rest =>
      unfold stripAmps
      split
      · rename_i heq
        rw [show c = '&' from (List.cons.injEq .. ▸ heq).1] at h
        simp at h
      · rfl

theorem head?_dropWhile {p : Char → Bool} :
    ∀ {l : List Char} {a : Char}, (l.dropWhile p).head? = some a → p a = false := by
  intro l
  induction l with
  | nil => intro a h; simp [List.dropWhile] at h
  | cons c rest ih =>
      intro a h
      rw [List.dropWhile_cons] at h
      by_cases hc : p c
      · rw [if_pos hc] at h; exact ih h
      · rw [if_neg hc] at h
        simp at h
        subst h
        simpa using hc

theorem getLast?_of_suffix {l₁ l₂ : List Char} (h : l₁ <:+ l₂) (hne : l₁ ≠ []) :
    l₁.getLast? = l₂.getLast? := by
  obtain ⟨t, rfl⟩ := h
  exact (List.getLast?_append_of_ne_nil t hne).symm

theorem infix_of_trimL (l : List Char) : trimL l <:+: l := by
  have h1 : l.dropWhile isWsChar <:+ l := List.dropWhile_suffix _
  have h2 : (l.dropWhile isWsChar).reverse.dropWhile isWsChar
      <:+ (l.dropWhile isWsChar).reverse := List.dropWhile_suffix _
  obtain ⟨s, hs⟩ := h2
  have h3 : trimL l <+: l.dropWhile isWsChar := by
    have h4 : ((l.dropWhile isWsChar).reverse.dropWhile isWsChar).reverse ++ s.reverse
        = l.dropWhile isWsChar := by
      have h5 := congrArg List.reverse hs
      simpa [List.reverse_append] using h5
    exact ⟨s.reverse, h4⟩
  exact (h3.isInfix).trans h1.isInfix

theorem trimL_head_not_ws {l : List Char} {a : Char}
    (h : (trimL l).head? = some a) : isWsChar a = false := by
  set d := l.dropWhile isWsChar with hd
  set y := d.reverse.dropWhile isWsChar with hy
  have hne : y ≠ [] := by
    intro hnil
    rw [show trimL l = y.reverse from rfl, hnil] at h
    simp at h
  have hsuf : y <:+ d.reverse := List.dropWhile_suffix _
  have hlast : y.getLast? = (d.reverse).getLast? := getLast?_of_suffix hsuf hne
  have hheadrev : (y.reverse).head? = y.getLast? := List.head?_reverse y
  have hd2 : (d.reverse).getLast? = d.head? := by
    rw [List.getLast?_reverse]
  rw [show trimL l = y.reverse from rfl] at h
  rw [hheadrev, hlast, hd2] at h
  exact head?_dropWhile h

theorem trimL_getLast_not_ws {l : List Char} {a : Char}
    (h : (trimL l).getLast? = some a) : isWsChar a = false := by
  set d := l.dropWhile isWsChar with hd
  set y := d.reverse.dropWhile isWsChar with hy
  rw [show trimL l = y.reverse from rfl, List.getLast?_reverse] at h
  exact head?_dropWhile h

theorem trimL_eq_self_of_ends {m : List Char}
    (h1 : ∀ a, m.head? = some a → isWsChar a = false)
    (h2 : ∀ a, m.getLast? = some a → isWsChar a = false) : trimL m = m := by
  unfold trimL
  have e1 : m.dropWhile isWsChar = m := by
    cases m with
    | nil => rfl
    | cons c rest => simp [List.dropWhile_cons, h1 c rfl]
  rw [e1]
  have e2 : m.reverse.dropWhile isWsChar = m.reverse := by
    cases hm : m.reverse with
    | nil => rfl
    | cons c rest =>
        have : m.getLast? = some c := by
          rw [← List.head?_reverse, hm]; rfl
        simp [List.dropWhile_cons, h2 c this, hm]
  rw [e2, List.reverse_reverse]

theorem trimL_idem (l : List Char) : trimL (trimL l) = trimL l :=
  trimL_eq_self_of_ends (fun _ h => trimL_head_not_ws h)
    (fun _ h => trimL_getLast_not_ws h)

/-! ## Qualifier-stripping lemmas -/

theorem single_prefix_iff_head {x : Char} {l : List Char} :
    [x] <+: l ↔ l.head? = some x := by
  cases l with
  | nil => simp
  | cons c rest => simp [List.cons_prefix_cons, eq_comm]

theorem rfindColons_cons_some {a : Char} {rest : List Char} {j : Nat}
    (hr : rfindColons rest = some j) : rfindColons (a :: rest) = some (j + 1) := by
  unfold rfindColons
  rw [hr]

theorem rfindColons_cons_none {a : Char} {rest : List Char}
    (hr : rfindColons rest = none) :
    rfindColons (a :: rest)
      = (if a = ':' ∧ rest.head? = some ':' then some 0 else none) := by
  unfold rfindColons
  rw [hr]

theorem rfindColons_none_iff :
    ∀ l : List Char, rfindColons l = none ↔ ¬ ([':', ':'] <:+: l) := by
  intro l
  induction l with
  | nil => simp [rfindColons]
  | cons a rest ih =>
      rw [List.infix_cons_iff]
      cases hr : rfindColons rest with
      | some j =>
          have hinf : [':', ':'] <:+: rest := by
            by_contra hn
            rw [ih.mpr hn] at hr
            exact Option.noConfusion hr
          rw [rfindColons_cons_some hr]
          simp [hinf]
      | none =>
          have hni : ¬ ([':', ':'] <:+: rest) := ih.mp hr
          have hpre : ([':', ':'] <+: a :: rest) ↔ (a = ':' ∧ rest.head? = some ':') := by
            rw [List.cons_prefix_cons, single_prefix_iff_head]
            tauto
          rw [rfindColons_cons_none hr]
          by_cases hc : a = ':' ∧ rest.head? = some ':'
          · simp only [if_pos hc, reduceCtorEq, false_iff, not_or, not_not]
            intro hcon
            exact hcon.1 (hpre.mpr hc)
          · simp only [if_neg hc, true_iff, not_or]
            exact ⟨fun hp => hc (hpre.mp hp), hni⟩

theorem rfindColons_drop_no :
    ∀ (l : List Char) (i : Nat), rfindColons l = some i →
      ¬ ([':', ':'] <:+: l.drop (i + 2)) := by
  intro l
  induction l with
  | nil => intro i h; simp [rfindColons] at h
  | cons a rest ih =>
      intro i h
      cases hr : rfindColons rest with
      | some j =>
          rw [rfindColons_cons_some hr] at h
          injection h with h
          subst h
          have hd : (a :: rest).drop (j + 1 + 2) = rest.drop (j + 2) := by
            show (a :: rest).drop ((j + 2) + 1) = rest.drop (j + 2)
            exact List.drop_succ_cons ..
          rw [hd]
          exact ih j hr
      | none =>
          rw [rfindColons_cons_none hr] at h
          split at h
          · injection h with h
            subst h
            have hni : ¬ ([':', ':'] <:+: rest) := (rfindColons_none_iff rest).mp hr
            have hd : (a :: rest).drop (0 + 2) = rest.drop 1 := rfl
            rw [hd]
            intro hcon
            exact hni (hcon.trans (List.drop_suffix 1 rest).isInfix)
          · exact Option.noConfusion h

theorem stripColons_no_infix (l : List Char) : ¬ ([':', ':'] <:+: stripColons l) := by
  unfold stripColons
  cases h : rfindColons l with
  | none => exact (rfindColons_none_iff l).mp h
  | some i => exact rfindColons_drop_no l i h

theorem stripColons_of_none {l : List Char} (h : rfindColons l = none) :
    stripColons l = l := by
  unfold stripColons
  rw [h]

theorem rfindColons_eq_none_of_no_colon {l : List Char} (h : ':' ∉ l) :
    rfindColons l = none := by
  rw [rfindColons_none_iff]
  intro hcon
  exact h (hcon.subset (by simp))

/-! ## Depth-counting scan lemmas -/

theorem scanMatch_cons (d : Nat) (c : Char) (rest : List Char) :
    scanMatch d (c :: rest) =
      if c = '<' then (scanMatch (d + 1) rest).map (· + 1)
      else if c = '>' then
        if d = 0 then some 0 else (scanMatch (d - 1) rest).map (· + 1)
      else (scanMatch d rest).map (· + 1) := rfl

theorem scanMatch_append_flat {xs : List Char}
    (hx : ∀ c ∈ xs, c ≠ '<' ∧ c ≠ '>') :
    ∀ (d : Nat) (rest : List Char),
      scanMatch d (xs ++ rest) = (scanMatch d rest).map (· + xs.length) := by
  induction xs with
  | nil =>
      intro d rest
      simp only [List.nil_append, List.length_nil]
      cases h : scanMatch d rest <;> simp [h]
  | cons c xs ih =>
      intro c_1 rest
      have hc := hx c (by simp)
      rw [List.cons_append, scanMatch_cons, if_neg hc.1, if_neg hc.2,
        ih (fun a ha => hx a (by simp [ha])) c_1 rest]
      cases h : scanMatch c_1 rest with
      | none => simp
      | some j => simp; omega

theorem scanMatch_lt_cons (d : Nat) (rest : List Char) :
    scanMatch d ('<' :: rest) = (scanMatch (d + 1) rest).map (· + 1) := by
  rw [scanMatch_cons]
  simp

theorem scanMatch_gt_cons_pos (d : Nat) (rest : List Char) :
    scanMatch (d + 1) ('>' :: rest) = (scanMatch d rest).map (· + 1) := by
  rw [scanMatch_cons]
  simp

theorem scanMatch_gt_cons_zero (rest : List Char) :
    scanMatch 0 ('>' :: rest) = some 0 := by
  rw [scanMatch_cons]
  simp

theorem scanMatch_flat_close {T : List Char}
    (hT : ∀ c ∈ T, c ≠ '<' ∧ c ≠ '>') (rest : List Char) :
    scanMatch 0 (T ++ '>' :: rest) = some T.length := by
  rw [scanMatch_append_flat hT 0 ('>' :: rest), scanMatch_gt_cons_zero]
  simp

theorem scanMatch_one_level {x T : List Char}
    (hx : ∀ c ∈ x, c ≠ '<' ∧ c ≠ '>') (hT : ∀ c ∈ T, c ≠ '<' ∧ c ≠ '>') :
    scanMatch 0 ((x ++ '<' :: T ++ ['>']) ++ ['>'])
      = some (x ++ '<' :: T ++ ['>']).length := by
  have hshape : (x ++ '<' :: T ++ ['>']) ++ ['>'] = x ++ '<' :: (T ++ ['>', '>']) := by
    simp
  rw [hshape, scanMatch_append_flat hx, scanMatch_lt_cons,
    scanMatch_append_flat hT, scanMatch_gt_cons_pos, scanMatch_gt_cons_zero]
  simp
  omega

theorem scanMatch_some_lt :
    ∀ (t : List Char) (d i : Nat), scanMatch d t = some i → i < t.length := by
  intro t
  induction t with
  | nil => intro d i h; simp [scanMatch] at h
  | cons c rest ih =>
      intro d i h
      rw [scanMatch_cons] at h
      by_cases h1 : c = '<'
      · rw [if_pos h1] at h
        cases hs : scanMatch (d + 1) rest with
        | none => rw [hs] at h; simp at h
        | some j =>
            rw [hs] at h
            simp at h
            have := ih (d + 1) j hs
            simp
            omega
      · rw [if_neg h1] at h
        by_cases h2 : c = '>'
        · rw [if_pos h2] at h
          by_cases h3 : d = 0
          · rw [if_pos h3] at h
            simp at h
            simp [← h]
          · rw [if_neg h3] at h
            cases hs : scanMatch (d - 1) rest with
            | none => rw [hs] at h; simp at h
            | some j =>
                rw [hs] at h
                simp at h
                have := ih (d - 1) j hs
                simp
                omega
        · rw [if_neg h2] at h
          cases hs : scanMatch d rest with
          | none => rw [hs] at h; simp at h
          | some j =>
              rw [hs] at h
              simp at h
              have := ih d j hs
              simp
              omega

/-! ## Byte-slicing lemmas -/

theorem byteWidth_ascii {c : Char} (h : c.toNat < 128) : byteWidth c = 1 := by
  unfold byteWidth
  rw [if_pos (by omega)]

theorem dropBytes_ascii :
    ∀ (l : List Char), (∀ c ∈ l, c.toNat < 128) → ∀ (a : Nat),
      dropBytes l a = if a ≤ l.length then some (l.drop a) else none := by
  intro l
  induction l with
  | nil =>
      intro _ a
      cases a with
      | zero => simp [dropBytes]
      | succ a => simp [dropBytes]
  | cons c rest ih =>
      intro h a
      cases a with
      | zero => simp [dropBytes]
      | succ a =>
          have hw : byteWidth c = 1 := byteWidth_ascii (h c (by simp))
          unfold dropBytes
          rw [hw, if_pos (by omega)]
          rw [ih (fun x hx => h x (by simp [hx])) (a + 1 - 1)]
          simp

theorem takeBytes_ascii :
    ∀ (l : List Char), (∀ c ∈ l, c.toNat < 128) → ∀ (n : Nat),
      takeBytes l n = if n ≤ l.length then some (l.take n) else none := by
  intro l
  induction l with
  | nil =>
      intro _ n
      cases n with
      | zero => simp [takeBytes]
      | succ n => simp [takeBytes]
  | cons c rest ih =>
      intro h n
      cases n with
      | zero => simp [takeBytes]
      | succ n =>
          have hw : byteWidth c = 1 := byteWidth_ascii (h c (by simp))
          unfold takeBytes
          rw [hw, if_pos (by omega)]
          rw [ih (fun x hx => h x (by simp [hx])) (n + 1 - 1)]
          by_cases hn : n ≤ rest.length
          · simp [hn]
          · simp [hn]

theorem byteSlice_ascii {l : List Char} (h : ∀ c ∈ l, c.toNat < 128) (a b : Nat) :
    byteSlice l a b
      = if a ≤ b ∧ b ≤ l.length then some ((l.drop a).take (b - a)) else none := by
  unfold byteSlice
  by_cases hab : a ≤ b
  · rw [if_pos hab, dropBytes_ascii l h a]
    by_cases hal : a ≤ l.length
    · rw [if_pos hal]
      have hsub : ∀ c ∈ l.drop a, c.toNat < 128 :=
        fun c hc => h c (List.drop_subset a l hc)
      rw [Option.some_bind]
      rw [takeBytes_ascii (l.drop a) hsub (b - a)]
      have hlen : (l.drop a).length = l.length - a := List.length_drop ..
      by_cases hbl : b ≤ l.length
      · rw [if_pos (by omega), if_pos ⟨hab, hbl⟩]
      · rw [if_neg (by omega), if_neg (by tauto)]
    · rw [if_neg hal]
      rw [if_neg (by omega)]
      rfl
  · rw [if_neg hab, if_neg (by tauto)]

theorem utf8Len_ascii {l : List Char} (h : ∀ c ∈ l, c.toNat < 128) :
    utf8Len l = l.length := by
  induction l with
  | nil => rfl
  | cons c rest ih =>
      unfold utf8Len at *
      simp only [List.map_cons, List.sum_cons]
      rw [byteWidth_ascii (h c (by simp)), ih (fun x hx => h x (by simp [hx])),
        List.length_cons]
      omega

/-! ## Locating the first angle bracket -/

theorem findLtByte_append {w : List Char}
    (hw : ∀ c ∈ w, c ≠ '<' ∧ c.toNat < 128) (rest : List Char) :
    findLtByte (w ++ '<' :: rest) = some w.length := by
  induction w with
  | nil => simp [findLtByte]
  | cons c w ih =>
      have hc := hw c (by simp)
      rw [List.cons_append]
      unfold findLtByte
      rw [if_neg hc.1, ih (fun x hx => hw x (by simp [hx]))]
      simp [byteWidth_ascii hc.2]
      omega

theorem afterLt_append {w : List Char} (hw : '<' ∉ w) (rest : List Char) :
    afterLt (w ++ '<' :: rest) = some rest := by
  induction w with
  | nil => simp [afterLt]
  | cons c w ih =>
      have hc : c ≠ '<' := fun hcc => hw (by simp [hcc])
      rw [List.cons_append]
      unfold afterLt
      rw [if_neg hc, ih (fun hx => hw (by simp [hx]))]

theorem findLtByte_eq_none {l : List Char} (h : '<' ∉ l) : findLtByte l = none := by
  induction l with
  | nil => rfl
  | cons c rest ih =>
      have hc : c ≠ '<' := fun hcc => h (by simp [hcc])
      unfold findLtByte
      rw [if_neg hc, ih (fun hx => h (by simp [hx]))]
      rfl

theorem findLtByte_isSome_of_mem {l : List Char} (h : '<' ∈ l) :
    ∃ s, findLtByte l = some s := by
  induction l with
  | nil => simp at h
  | cons c rest ih =>
      unfold findLtByte
      by_cases hc : c = '<'
      · exact ⟨0, by rw [if_pos hc]⟩
      · have hm : '<' ∈ rest := by
          rcases List.mem_cons.mp h with h1 | h1
          · exact absurd h1.symm hc
          · exact h1
        obtain ⟨s, hs⟩ := ih hm
        exact ⟨byteWidth c + s, by rw [if_neg hc, hs]; rfl⟩

theorem afterLt_spec :
    ∀ {l tail : List Char}, afterLt l = some tail →
      ∃ pre, l = pre ++ '<' :: tail ∧ '<' ∉ pre := by
  intro l
  induction l with
  | nil => intro tail h; simp [afterLt] at h
  | cons c rest ih =>
      intro tail h
      unfold afterLt at h
      by_cases hc : c = '<'
      · rw [if_pos hc] at h
        injection h with h
        subst h
        exact ⟨[], by simp [hc]⟩
      · rw [if_neg hc] at h
        obtain ⟨pre, hpre, hnlt⟩ := ih h
        refine ⟨c :: pre, by simp [hpre], ?_⟩
        intro hmem
        rcases List.mem_cons.mp hmem with h1 | h1
        · exact hc h1.symm
        · exact hnlt h1

theorem afterLt_isSome_of_mem {l : List Char} (h : '<' ∈ l) :
    ∃ tail, afterLt l = some tail := by
  induction l with
  | nil => simp at h
  | cons c rest ih =>
      unfold afterLt
      by_cases hc : c = '<'
      · exact ⟨rest, by rw [if_pos hc]⟩
      · have hm : '<' ∈ rest := by
          rcases List.mem_cons.mp h with h1 | h1
          · exact absurd h1.symm hc
          · exact h1
        obtain ⟨tail, ht⟩ := ih hm
        exact ⟨tail, by rw [if_neg hc, ht]⟩

/-! ## Wrapper-vocabulary lemmas -/

theorem wrappersL_facts :
    ∀ w ∈ wrappersL, w ≠ [] ∧ (∀ c ∈ w, isIdentChar c = true) := by decide

theorem prefix_of_append_single {A y : List Char} {z : Char}
    (h : A <+: y ++ [z]) (hlen : A.length ≤ y.length) : A <+: y := by
  have h1 : A = (y ++ [z]).take A.length := List.prefix_iff_eq_take.mp h
  rw [List.take_append_of_le_length hlen] at h1
  rw [h1]
  exact List.take_prefix ..

theorem prefix_wrapper_unique {w w' tail : List Char}
    (hw : '<' ∉ w) (hw' : '<' ∉ w')
    (h : (w' ++ ['<']) <+: (w ++ '<' :: tail)) : w' = w := by
  have hsplit : w ++ '<' :: tail = (w ++ ['<']) ++ tail := by simp
  rw [hsplit] at h
  have hb : (w ++ ['<']) <+: (w ++ ['<']) ++ tail := List.prefix_append ..
  rcases Nat.le_total (w'.length + 1) (w.length + 1) with hle | hge
  · have h1 : (w' ++ ['<']) <+: (w ++ ['<']) :=
      List.prefix_of_prefix_length_le h hb (by simpa using hle)
    rcases Nat.lt_or_ge w'.length w.length with hlt | hge2
    · exfalso
      have h2 : (w' ++ ['<']) <+: w :=
        prefix_of_append_single h1 (by simpa using hlt)
      exact hw (h2.subset (by simp))
    · have hlen : w'.length = w.length := by omega
      have h3 : w' ++ ['<'] = w ++ ['<'] :=
        List.IsPrefix.eq_of_length h1 (by simp [hlen])
      simpa using h3
  · have h1 : (w ++ ['<']) <+: (w' ++ ['<']) :=
      List.prefix_of_prefix_length_le hb h (by simpa using hge)
    rcases Nat.lt_or_ge w.length w'.length with hlt | hge2
    · exfalso
      have h2 : (w ++ ['<']) <+: w' :=
        prefix_of_append_single h1 (by simpa using hlt)
      exact hw' (h2.subset (by simp))
    · have hlen : w'.length = w.length := by omega
      have h3 : w ++ ['<'] = w' ++ ['<'] :=
        List.IsPrefix.eq_of_length h1 (by simp [hlen])
      simpa using h3.symm

theorem find?_wrapper_first {w tail : List Char} (hwlt : '<' ∉ w) :
    ∀ ws : List (List Char), w ∈ ws → (∀ x ∈ ws, '<' ∉ x) →
      ws.find? (fun w' => lstartsWith (w' ++ ['<']) (w ++ '<' :: tail)) = some w := by
  intro ws
  induction ws with
  | nil => intro h; simp at h
  | cons x xs ih =>
      intro hmem hall
      by_cases hx : lstartsWith (x ++ ['<']) (w ++ '<' :: tail) = true
      · have hxw : x = w :=
          prefix_wrapper_unique hwlt (hall x (by simp))
            ((lstartsWith_iff ..).mp hx)
        subst hxw
        exact List.find?_cons_of_pos _ hx
      · have hwx : w ≠ x := by
          rintro rfl
          exact hx ((lstartsWith_iff ..).mpr ⟨tail, by simp⟩)
        have hmem2 : w ∈ xs := by
          rcases List.mem_cons.mp hmem with h1 | h1
          · exact absurd h1 hwx
          · exact h1
        exact (List.find?_cons_of_neg _ (by simpa using hx)).trans
          (ih hmem2 (fun y hy => hall y (by simp [hy])))

theorem findWrapper_of_mem {w tail : List Char} (hw : w ∈ wrappersL) :
    findWrapper (w ++ '<' :: tail) = some w := by
  have hlt : '<' ∉ w := by
    have := (wrappersL_facts w hw).2
    intro hmem
    exact absurd (identChar_facts (this '<' hmem)).1 (by simp)
  have hall : ∀ x ∈ wrappersL, '<' ∉ x := by
    intro x hx hmem
    exact absurd (identChar_facts ((wrappersL_facts x hx).2 '<' hmem)).1 (by simp)
  exact find?_wrapper_first hlt wrappersL hw hall

theorem findWrapper_eq_none {r : List Char} (h : '<' ∉ r) :
    findWrapper r = none := by
  unfold findWrapper
  rw [List.find?_eq_none]
  intro w _ hsw
  exact h (((lstartsWith_iff ..).mp hsw).subset (by simp))

theorem findWrapper_some_mem_lt {r w : List Char} (h : findWrapper r = some w) :
    '<' ∈ r := by
  have hp := List.find?_some h
  exact (((lstartsWith_iff ..).mp hp).subset (by simp))

/-! ## Evaluation lemmas for the unwrapper -/

theorem uw_true_succ (n : Nat) (ty : List Char) :
    uw (n + 1) true ty
      = match uw n false (stripAmps (trimL ty)) with
        | none => none
        | some r => some (trimL (stripColons r)) := rfl

theorem uw_false_succ (n : Nat) (r : List Char) :
    uw (n + 1) false r
      = match findWrapper r with
        | none => some r
        | some _ =>
            match findLtByte r, afterLt r with
            | some start, some tail =>
                match byteSlice r (start + 1)
                    (start + 1 + (scanMatch 0 tail).getD 0) with
                | none => none
                | some inside =>
                    match uw n true inside with
                    | none => none
                    | some r2 => uw n false r2
            | _, _ => some r := rfl

theorem uw_false_of_no_wrapper (n : Nat) {r : List Char}
    (h : findWrapper r = none) : uw (n + 1) false r = some r := by
  rw [uw_false_succ, h]

theorem uw_true_of_clean (n : Nat) {r : List Char}
    (h1 : stripAmps (trimL r) = r) (h2 : findWrapper r = none)
    (h3 : stripColons r = r) (h4 : trimL r = r) :
    uw (n + 2) true r = some r := by
  rw [show n + 2 = (n + 1) + 1 from rfl, uw_true_succ, h1,
    uw_false_of_no_wrapper n h2]
  show some (trimL (stripColons r)) = some r
  rw [h3, h4]

theorem identList_props {T : List Char} (hT : ∀ c ∈ T, isIdentChar c = true) :
    trimL T = T ∧ stripAmps T = T ∧ findWrapper T = none ∧ stripColons T = T := by
  have hws : ∀ c ∈ T, isWsChar c = false :=
    fun c hc => (identChar_facts (hT c hc)).2.2.2.2.1
  have hlt : '<' ∉ T := fun hm => (identChar_facts (hT _ hm)).1 rfl
  have hcol : ':' ∉ T := fun hm => (identChar_facts (hT _ hm)).2.2.2.1 rfl
  refine ⟨trimL_eq_self_of_all hws, ?_, findWrapper_eq_none hlt,
    stripColons_of_none (rfindColons_eq_none_of_no_colon hcol)⟩
  apply stripAmps_eq_self
  cases T with
  | nil => simp
  | cons c rest =>
      have : c ≠ '&' := (identChar_facts (hT c (by simp))).2.2.1
      simp [this]

theorem uw_true_ident (n : Nat) {T : List Char}
    (hT : ∀ c ∈ T, isIdentChar c = true) : uw (n + 2) true T = some T := by
  obtain ⟨h1, h2, h3, h4⟩ := identList_props hT
  exact uw_true_of_clean n (by rw [h1, h2]) h3 h4 h1

theorem uw_false_peel (n : Nat) {w S : List Char} (hw : w ∈ wrappersL)
    (hS_ascii : ∀ c ∈ S, c.toNat < 128)
    (hscan : scanMatch 0 (S ++ ['>']) = some S.length) :
    uw (n + 1) false (w ++ '<' :: (S ++ ['>']))
      = match uw n true S with
        | none => none
        | some r2 => uw n false r2 := by
  obtain ⟨hne, hid⟩ := wrappersL_facts w hw
  have hwf : ∀ c ∈ w, c ≠ '<' ∧ c.toNat < 128 := fun c hc =>
    ⟨(identChar_facts (hid c hc)).1, (identChar_facts (hid c hc)).2.2.2.2.2⟩
  have hlt : '<' ∉ w := fun hm => (hwf _ hm).1 rfl
  have hfw : findWrapper (w ++ '<' :: (S ++ ['>'])) = some w := findWrapper_of_mem hw
  have hflt : findLtByte (w ++ '<' :: (S ++ ['>'])) = some w.length :=
    findLtByte_append hwf _
  have haft : afterLt (w ++ '<' :: (S ++ ['>'])) = some (S ++ ['>']) :=
    afterLt_append hlt _
  have hascii_all : ∀ c ∈ w ++ '<' :: (S ++ ['>']), c.toNat < 128 := by
    intro c hc
    rcases List.mem_append.mp hc with hc | hc
    · exact (hwf c hc).2
    · rcases List.mem_cons.mp hc with rfl | hc
      · decide
      · rcases List.mem_append.mp hc with hc | hc
        · exact hS_ascii c hc
        · simp at hc
          subst hc
          decide
  have hslice : byteSlice (w ++ '<' :: (S ++ ['>'])) (w.length + 1)
      (w.length + 1 + S.length) = some S := by
    rw [byteSlice_ascii hascii_all]
    have hlen : (w ++ '<' :: (S ++ ['>'])).length = w.length + 1 + S.length + 1 := by
      simp
      omega
    rw [if_pos ⟨by omega, by omega⟩]
    have hd : (w ++ '<' :: (S ++ ['>'])).drop (w.length + 1) = S ++ ['>'] := by
      rw [show w ++ '<' :: (S ++ ['>']) = (w ++ ['<']) ++ (S ++ ['>']) by simp]
      rw [show w.length + 1 = (w ++ ['<']).length by simp]
      exact List.drop_left ..
    rw [hd, show w.length + 1 + S.length - (w.length + 1) = S.length by omega]
    rw [List.take_left]
  simp only [uw_false_succ, hfw, hflt, haft, hscan, Option.getD_some, hslice]

theorem uw_true_wrap_ident (n : Nat) {w T : List Char} (hw : w ∈ wrappersL)
    (hT : ∀ c ∈ T, isIdentChar c = true) :
    uw (n + 4) true (w ++ '<' :: (T ++ ['>'])) = some T := by
  obtain ⟨hne, hid⟩ := wrappersL_facts w hw
  obtain ⟨hT1, hT2, hT3, hT4⟩ := identList_props hT
  have hprep : stripAmps (trimL (w ++ '<' :: (T ++ ['>'])))
      = w ++ '<' :: (T ++ ['>']) := by
    have hws : ∀ c ∈ w ++ '<' :: (T ++ ['>']), isWsChar c = false := by
      intro c hc
      rcases List.mem_append.mp hc with hc | hc
      · exact (identChar_facts (hid c hc)).2.2.2.2.1
      · rcases List.mem_cons.mp hc with rfl | hc
        · decide
        · rcases List.mem_append.mp hc with hc | hc
          · exact (identChar_facts (hT c hc)).2.2.2.2.1
          · simp at hc
            subst hc
            decide
    rw [trimL_eq_self_of_all hws]
    apply stripAmps_eq_self
    cases w with
    | nil => exact absurd rfl hne
    | cons c w' =>
        have : c ≠ '&' := (identChar_facts (hid c (by simp))).2.2.1
        simp [this]
  have hTflat : ∀ c ∈ T, c ≠ '<' ∧ c ≠ '>' := fun c hc =>
    ⟨(identChar_facts (hT c hc)).1, (identChar_facts (hT c hc)).2.1⟩
  have hscan : scanMatch 0 (T ++ ['>']) = some T.length :=
    scanMatch_flat_close hTflat []
  have hTascii : ∀ c ∈ T, c.toNat < 128 :=
    fun c hc => (identChar_facts (hT c hc)).2.2.2.2.2
  rw [show n + 4 = (n + 3) + 1 from rfl, uw_true_succ, hprep,
    show n + 3 = (n + 2) + 1 from rfl, uw_false_peel (n + 2) hw hTascii hscan]
  simp only [uw_true_ident n hT]
  rw [show n + 2 = (n + 1) + 1 from rfl, uw_false_of_no_wrapper (n + 1) hT3]
  show some (trimL (stripColons T)) = some T
  rw [hT4, hT1]

theorem uw_true_opt_box (n : Nat) {T : List Char}
    (hT : ∀ c ∈ T, isIdentChar c = true) :
    uw (n + 6) true
      (strL "Option" ++ '<' :: ((strL "Box" ++ '<' :: (T ++ ['>'])) ++ ['>']))
      = some T := by
  obtain ⟨hT1, hT2, hT3, hT4⟩ := identList_props hT
  have hTid := hT
  have hTascii : ∀ c ∈ T, c.toNat < 128 :=
    fun c hc => (identChar_facts (hT c hc)).2.2.2.2.2
  have hTflat : ∀ c ∈ T, c ≠ '<' ∧ c ≠ '>' := fun c hc =>
    ⟨(identChar_facts (hT c hc)).1, (identChar_facts (hT c hc)).2.1⟩
  have hBoxAscii : ∀ c ∈ strL "Box", c.toNat < 128 := by decide
  have hBoxWs : ∀ c ∈ strL "Box", isWsChar c = false := by decide
  have hOptWs : ∀ c ∈ strL "Option", isWsChar c = false := by decide
  have hSascii : ∀ c ∈ (strL "Box" ++ '<' :: (T ++ ['>'])), c.toNat < 128 := by
    intro c hc
    rcases List.mem_append.mp hc with hc | hc
    · exact hBoxAscii c hc
    · rcases List.mem_cons.mp hc with rfl | hc
      · decide
      · rcases List.mem_append.mp hc with hc | hc
        · exact hTascii c hc
        · simp at hc
          subst hc
          decide
  have hscan : scanMatch 0 ((strL "Box" ++ '<' :: (T ++ ['>'])) ++ ['>'])
      = some (strL "Box" ++ '<' :: (T ++ ['>'])).length := by
    have hBflat : ∀ c ∈ strL "Box", c ≠ '<' ∧ c ≠ '>' := by decide
    have := scanMatch_one_level hBflat hTflat
    simpa using this
  have hSws : ∀ c ∈ strL "Box" ++ '<' :: (T ++ ['>']), isWsChar c = false := by
    intro c hc
    rcases List.mem_append.mp hc with hc | hc
    · exact hBoxWs c hc
    · rcases List.mem_cons.mp hc with rfl | hc
      · decide
      · rcases List.mem_append.mp hc with hc | hc
        · exact (identChar_facts (hT c hc)).2.2.2.2.1
        · simp at hc
          subst hc
          decide
  have hprep : stripAmps (trimL
      (strL "Option" ++ '<' :: ((strL "Box" ++ '<' :: (T ++ ['>'])) ++ ['>'])))
      = strL "Option" ++ '<' :: ((strL "Box" ++ '<' :: (T ++ ['>'])) ++ ['>']) := by
    have hws : ∀ c ∈ strL "Option" ++ '<' :: ((strL "Box" ++ '<' :: (T ++ ['>'])) ++ ['>']),
        isWsChar c = false := by
      intro c hc
      rcases List.mem_append.mp hc with hc | hc
      · exact hOptWs c hc
      · rcases List.mem_cons.mp hc with rfl | hc
        · decide
        · rcases List.mem_append.mp hc with hc | hc
          · exact hSws c hc
          · simp at hc
            subst hc
            decide
    rw [trimL_eq_self_of_all hws]
    apply stripAmps_eq_self
    simp [strL]
  have hOmem : strL "Option" ∈ wrappersL := by decide
  have hBmem : strL "Box" ∈ wrappersL := by decide
  rw [show n + 6 = (n + 5) + 1 from rfl, uw_true_succ, hprep,
    show n + 5 = (n + 4) + 1 from rfl, uw_false_peel (n + 4) hOmem hSascii hscan]
  simp only [uw_true_wrap_ident n hBmem hT]
  rw [show n + 4 = (n + 3) + 1 from rfl, uw_false_of_no_wrapper (n + 3) hT3]
  show some (trimL (stripColons T)) = some T
  rw [hT4, hT1]

/-! ## Claim C8 (unwrapper contract) -/

/-- C8: for every wrapper name `W` of the vocabulary and every plain
identifier `T` (characters are ASCII letters, digits or underscore),
`unwrap_type` maps `W<T>` to `T`; nested wrappers fully reduce
(`Option<Box<T>>` gives `T`); and a namespace-qualified name reduces to
its final segment (`module::Sub::Type` gives `Type`). -/
theorem C8_unwrapper :
    (∀ (w T : List Char), w ∈ wrappersL → (∀ c ∈ T, isIdentChar c = true) →
        unwrap_type (w ++ '<' :: (T ++ ['>'])) = some T)
    ∧ (∀ T : List Char, (∀ c ∈ T, isIdentChar c = true) →
        unwrap_type (strL "Option<Box<" ++ T ++ strL ">>") = some T)
    ∧ unwrap_type (strL "module::Sub::Type") = some (strL "Type") := by
  refine ⟨?_, ?_, by decide⟩
  · intro w T hw hT
    unfold unwrap_type
    exact uw_true_wrap_ident _ hw hT
  · intro T hT
    have hshape : strL "Option<Box<" ++ T ++ strL ">>"
        = strL "Option" ++ '<' :: ((strL "Box" ++ '<' :: (T ++ ['>'])) ++ ['>']) := by
      simp [strL]
    rw [hshape]
    have hlen : (strL "Option" ++ '<' ::
        ((strL "Box" ++ '<' :: (T ++ ['>'])) ++ ['>'])).length = T.length + 13 := by
      simp [strL]
    unfold unwrap_type
    rw [hlen, show 2 * (T.length + 13) + 4 = (2 * (T.length + 13) - 2) + 6 by omega]
    exact uw_true_opt_box _ hT

/-- C8 (witness): the universal parts applied at wrapper `Vec` and
identifier `Foo`. -/
theorem C8_unwrapper_witness :
    unwrap_type (strL "Vec" ++ '<' :: (strL "Foo" ++ ['>'])) = some (strL "Foo")
    ∧ unwrap_type (strL "Option<Box<" ++ strL "Foo" ++ strL ">>") = some (strL "Foo") :=
  ⟨C8_unwrapper.1 (strL "Vec") (strL "Foo") (by decide) (by decide),
   C8_unwrapper.2.1 (strL "Foo") (by decide)⟩

/-! ## Claim C3 (idempotence of the unwrapper) -/

/-- C3: the claim asserts `unwrap(unwrap(x)) = unwrap(x)` for every input.
It fails: `unwrap("a::Vec<B>")` is `"Vec<B>"` (the qualifier is stripped
only after the wrapper loop has finished) and a second pass reduces it
further to `"B"`; likewise `unwrap("A::&B")` is `"&B"` and a second pass
strips the reference sigil, giving `"B"`. -/
theorem C3_counterexample :
    ((unwrap_type (strL "a::Vec<B>")).bind unwrap_type = some (strL "B")
      ∧ unwrap_type (strL "a::Vec<B>") = some (strL "Vec<B>")
      ∧ strL "Vec<B>" ≠ strL "B")
    ∧ ((unwrap_type (strL "A::&B")).bind unwrap_type = some (strL "B")
      ∧ unwrap_type (strL "A::&B") = some (strL "&B")
      ∧ strL "&B" ≠ strL "B") := by
  refine ⟨⟨by decide, by decide, by decide⟩, ⟨by decide, by decide, by decide⟩⟩

theorem uw_true_some_shape {n : Nat} {ty r : List Char}
    (h : uw (n + 1) true ty = some r) :
    ∃ u, uw n false (stripAmps (trimL ty)) = some u ∧ r = trimL (stripColons u) := by
  unfold uw at h
  cases hu : uw n false (stripAmps (trimL ty)) with
  | none => rw [hu] at h; exact absurd h (by simp)
  | some u =>
      rw [hu] at h
      simp at h
      exact ⟨u, rfl, h.symm⟩

/-- C3 (amended): a second pass is a no-op exactly on the results that give
the first pass nothing left to strip: whenever `unwrap(x)` succeeds with a
result `r` that neither starts with a wrapper-generic prefix `W<` (i.e.
`findWrapper r = none`) nor starts with a reference sigil `&`, then
`unwrap(r) = r`.  On other inputs a second pass can strip further, as the
counterexamples `a::Vec<B>` and `A::&B` show. -/
theorem C3_amended :
    ∀ (x r : List Char), unwrap_type x = some r →
      findWrapper r = none → r.head? ≠ some '&' →
      unwrap_type r = some r := by
  intro x r hx hfw hamp
  unfold unwrap_type at hx
  obtain ⟨u, _, hru⟩ := uw_true_some_shape hx
  have htrim : trimL r = r := by rw [hru]; exact trimL_idem _
  have hcol : rfindColons r = none := by
    rw [rfindColons_none_iff]
    intro hinf
    rw [hru] at hinf
    exact stripColons_no_infix u (hinf.trans (infix_of_trimL _))
  unfold unwrap_type
  exact uw_true_of_clean (2 * r.length + 2)
    (by rw [htrim]; exact stripAmps_eq_self hamp)
    hfw (stripColons_of_none hcol) htrim

/-- C3 (witness): the amended statement applied at `x = Option<Foo>`,
whose unwrap result `Foo` satisfies both side conditions. -/
theorem C3_amended_witness : unwrap_type (strL "Foo") = some (strL "Foo") :=
  C3_amended (strL "Option<Foo>") (strL "Foo") (by decide) (by decide) (by decide)

/-! ## Structural lemmas about the unwrapper's output -/

theorem ampSkip_suffix : ∀ l : List Char, ampSkip l <:+ l := by
  intro l
  induction l with
  | nil => exact List.suffix_refl _
  | cons c rest ih =>
      unfold ampSkip
      split
      · exact ih.trans (List.suffix_cons ..)
      · split
        · exact ih.trans (List.suffix_cons ..)
        · exact List.suffix_refl _

theorem stripAmps_suffix (l : List Char) : stripAmps l <:+ l := by
  cases l with
  | nil => exact List.suffix_refl _
  | cons c rest =>
      by_cases hc : c = '&'
      · subst hc
        show ampSkip rest <:+ '&' :: rest
        exact (ampSkip_suffix rest).trans (List.suffix_cons ..)
      · rw [stripAmps_eq_self (by simp [hc])]

theorem trimL_sublist (l : List Char) : (trimL l).Sublist l :=
  (infix_of_trimL l).sublist

theorem stripColons_suffix (l : List Char) : stripColons l <:+ l := by
  unfold stripColons
  cases rfindColons l with
  | none => exact List.suffix_refl _
  | some i => exact List.drop_suffix ..

theorem dropBytes_suffix :
    ∀ (l : List Char) (a : Nat) (t : List Char), dropBytes l a = some t → t <:+ l := by
  intro l
  induction l with
  | nil =>
      intro a t h
      cases a with
      | zero =>
          injection h with h
          subst h
          exact List.suffix_refl _
      | succ a => simp [dropBytes] at h
  | cons c rest ih =>
      intro a t h
      cases a with
      | zero =>
          injection h with h
          subst h
          exact List.suffix_refl _
      | succ a =>
          unfold dropBytes at h
          split at h
          · exact (ih _ t h).trans (List.suffix_cons ..)
          · exact Option.noConfusion h

theorem takeBytes_front :
    ∀ (l : List Char) (n : Nat) (s : List Char), takeBytes l n = some s → s <+: l := by
  intro l
  induction l with
  | nil =>
      intro n s h
      cases n with
      | zero =>
          injection h with h
          subst h
          exact List.nil_prefix
      | succ n => simp [takeBytes] at h
  | cons c rest ih =>
      intro n s h
      cases n with
      | zero =>
          injection h with h
          subst h
          exact List.nil_prefix
      | succ n =>
          unfold takeBytes at h
          split at h
          · cases hs : takeBytes rest (n + 1 - byteWidth c) with
            | none => rw [hs] at h; exact Option.noConfusion h
            | some s2 =>
                rw [hs] at h
                injection h with h
                subst h
                exact List.cons_prefix_cons.mpr ⟨rfl, ih _ s2 hs⟩
          · exact Option.noConfusion h

theorem byteSlice_sublist {l : List Char} {a b : Nat} {s : List Char}
    (h : byteSlice l a b = some s) : s.Sublist l := by
  unfold byteSlice at h
  split at h
  · cases hd : dropBytes l a with
    | none => rw [hd] at h; exact Option.noConfusion h
    | some t =>
        rw [hd, Option.some_bind] at h
        exact ((takeBytes_front t _ s h).sublist).trans (dropBytes_suffix l a t hd).sublist
  · exact Option.noConfusion h

theorem dropBytes_length_lt :
    ∀ (l : List Char) (a : Nat) (t : List Char),
      dropBytes l a = some t → 1 ≤ a → t.length < l.length := by
  intro l
  induction l with
  | nil =>
      intro a t h ha
      cases a with
      | zero => omega
      | succ a => simp [dropBytes] at h
  | cons c rest ih =>
      intro a t h _
      cases a with
      | zero => omega
      | succ a =>
          unfold dropBytes at h
          split at h
          · have := (dropBytes_suffix rest _ t h).length_le
            simp
            omega
          · exact Option.noConfusion h

theorem byteSlice_length_lt {l : List Char} {a b : Nat} {s : List Char}
    (h : byteSlice l a b = some s) (ha : 1 ≤ a) : s.length < l.length := by
  unfold byteSlice at h
  split at h
  · cases hd : dropBytes l a with
    | none => rw [hd] at h; exact Option.noConfusion h
    | some t =>
        rw [hd, Option.some_bind] at h
        have h1 := (takeBytes_front t _ s h).length_le
        have h2 := dropBytes_length_lt l a t hd ha
        omega
  · exact Option.noConfusion h

theorem uw_sublist :
    ∀ (n : Nat) (b : Bool) (l r : List Char), uw n b l = some r → r.Sublist l := by
  intro n
  induction n with
  | zero => intro b l r h; simp [uw] at h
  | succ m ih =>
      intro b l r h
      cases b
      · rw [uw_false_succ] at h
        cases hfw : findWrapper l with
        | none =>
            simp only [hfw] at h
            injection h with h
            subst h
            exact List.Sublist.refl _
        | some w =>
            simp only [hfw] at h
            cases hflt : findLtByte l with
            | none =>
                simp only [hflt] at h
                injection h with h
                subst h
                exact List.Sublist.refl _
            | some start =>
                simp only [hflt] at h
                cases haft : afterLt l with
                | none =>
                    simp only [haft] at h
                    injection h with h
                    subst h
                    exact List.Sublist.refl _
                | some tail =>
                    simp only [haft] at h
                    cases hbs : byteSlice l (start + 1)
                        (start + 1 + (scanMatch 0 tail).getD 0) with
                    | none =>
                        simp only [hbs] at h
                        exact Option.noConfusion h
                    | some inside =>
                        simp only [hbs] at h
                        cases hu1 : uw m true inside with
                        | none =>
                            simp only [hu1] at h
                            exact Option.noConfusion h
                        | some r2 =>
                            simp only [hu1] at h
                            exact ((ih false r2 r h).trans
                              (ih true inside r2 hu1)).trans (byteSlice_sublist hbs)
      · rw [uw_true_succ] at h
        cases hu : uw m false (stripAmps (trimL l)) with
        | none => rw [hu] at h; exact Option.noConfusion h
        | some u =>
            rw [hu] at h
            injection h with h
            rw [← h]
            exact ((trimL_sublist (stripColons u)).trans
              (stripColons_suffix u).sublist).trans
                ((ih false _ u hu).trans
                  ((stripAmps_suffix _).sublist.trans (trimL_sublist l)))

/-! ## Totality of the unwrapper on ASCII input -/

theorem uw_isSome :
    ∀ (n : Nat) (b : Bool) (l : List Char), (∀ c ∈ l, c.toNat < 128) →
      (if b then 2 * l.length + 2 else 2 * l.length + 1) ≤ n →
      (uw n b l).isSome := by
  intro n
  induction n using Nat.strong_induction_on with
  | _ n ih =>
      intro b l hl hn
      cases b
      · replace hn : 2 * l.length + 1 ≤ n := hn
        obtain ⟨m, rfl⟩ : ∃ m, n = m + 1 := ⟨n - 1, by omega⟩
        rw [uw_false_succ]
        cases hfw : findWrapper l with
        | none => simp
        | some w =>
            have hltmem : '<' ∈ l := findWrapper_some_mem_lt hfw
            obtain ⟨tail, haft⟩ := afterLt_isSome_of_mem hltmem
            obtain ⟨pre, hpre, hprelt⟩ := afterLt_spec haft
            have hpreascii : ∀ c ∈ pre, c ≠ '<' ∧ c.toNat < 128 := by
              intro c hc
              refine ⟨fun hcc => hprelt (hcc ▸ hc), hl c ?_⟩
              rw [hpre]
              exact List.mem_append_left _ hc
            have hflt : findLtByte l = some pre.length := by
              rw [hpre]
              exact findLtByte_append hpreascii tail
            have hlen : l.length = pre.length + 1 + tail.length := by
              rw [hpre]
              simp
              omega
            have hk : pre.length + 1 + (scanMatch 0 tail).getD 0 ≤ l.length := by
              cases hs : scanMatch 0 tail with
              | none => simp; omega
              | some j =>
                  have := scanMatch_some_lt tail 0 j hs
                  simp
                  omega
            have hslice : byteSlice l (pre.length + 1)
                (pre.length + 1 + (scanMatch 0 tail).getD 0)
                = some ((l.drop (pre.length + 1)).take ((scanMatch 0 tail).getD 0)) := by
              rw [byteSlice_ascii hl, if_pos ⟨by omega, hk⟩,
                show pre.length + 1 + (scanMatch 0 tail).getD 0 - (pre.length + 1)
                  = (scanMatch 0 tail).getD 0 by omega]
            set inside := (l.drop (pre.length + 1)).take ((scanMatch 0 tail).getD 0)
              with hinside
            have hinascii : ∀ c ∈ inside, c.toNat < 128 := by
              intro c hc
              exact hl c (List.drop_subset _ l (List.take_subset _ _ hc))
            have hinlen : inside.length < l.length := by
              have h1 : inside.length ≤ (l.drop (pre.length + 1)).length :=
                (List.take_sublist ..).length_le
              rw [List.length_drop] at h1
              omega
            have h1 : (uw m true inside).isSome := by
              apply ih m (by omega) true inside hinascii
              simp
              omega
            obtain ⟨r2, hr2⟩ := Option.isSome_iff_exists.mp h1
            have hr2sub := uw_sublist m true inside r2 hr2
            have h2 : (uw m false r2).isSome := by
              apply ih m (by omega) false r2
                (fun c hc => hinascii c (hr2sub.subset hc))
              have := hr2sub.length_le
              simp
              omega
            simp only [hfw, hflt, haft, hslice, hr2]
            exact h2
      · replace hn : 2 * l.length + 2 ≤ n := hn
        obtain ⟨m, rfl⟩ : ∃ m, n = m + 1 := ⟨n - 1, by omega⟩
        rw [uw_true_succ]
        have hsub : (stripAmps (trimL l)).Sublist l :=
          ((stripAmps_suffix _).sublist).trans (trimL_sublist l)
        have h1 : (uw m false (stripAmps (trimL l))).isSome := by
          apply ih m (by omega) false _ (fun c hc => hl c (hsub.subset hc))
          have := hsub.length_le
          simp
          omega
        obtain ⟨u, hu⟩ := Option.isSome_iff_exists.mp h1
        rw [hu]
        simp

/-! ## Totality of the splitter on ASCII input -/

theorem extractFuel_succ (n : Nat) (ty : List Char) :
    extractFuel (n + 1) ty
      = (match (match findLtByte ty with
          | none => some ([] : List (List Char))
          | some start =>
              if ty.length < start + 1 then none
              else
                match byteSlice ty (start + 1)
                    (start + 1 + (scanMatch 0 (ty.drop (start + 1))).getD 0) with
                | none => none
                | some inside => splitSegs inside) with
        | none => none
        | some [] =>
            match unwrap_type ty with
            | none => none
            | some u => some [u]
        | some segs =>
            segs.foldl
              (fun acc? sub =>
                match acc?, extractFuel n sub with
                | some acc, some deeper => some (acc ++ deeper)
                | _, _ => none)
              (some [])) := rfl

theorem utf8Len_cons (c : Char) (l : List Char) :
    utf8Len (c :: l) = byteWidth c + utf8Len l := by
  unfold utf8Len
  simp

theorem findLtByte_spec :
    ∀ {l : List Char} {s : Nat}, findLtByte l = some s →
      ∃ pre tail, l = pre ++ '<' :: tail ∧ '<' ∉ pre ∧ s = utf8Len pre := by
  intro l
  induction l with
  | nil => intro s h; simp [findLtByte] at h
  | cons c rest ih =>
      intro s h
      unfold findLtByte at h
      by_cases hc : c = '<'
      · rw [if_pos hc] at h
        injection h with h
        exact ⟨[], rest, by simp [hc], by simp, by simp [utf8Len, ← h]⟩
      · rw [if_neg hc] at h
        cases hr : findLtByte rest with
        | none => rw [hr] at h; exact Option.noConfusion h
        | some s2 =>
            rw [hr] at h
            injection h with h
            obtain ⟨pre, tail, hsp, hnlt, hlen⟩ := ih hr
            refine ⟨c :: pre, tail, by simp [hsp], ?_, ?_⟩
            · intro hmem
              rcases List.mem_cons.mp hmem with h1 | h1
              · exact hc h1.symm
              · exact hnlt h1
            · rw [utf8Len_cons, ← hlen, ← h]

theorem commaIdxs_bounds :
    ∀ (l : List Char) (d : Int) (i j : Nat),
      j ∈ commaIdxs d i l → i ≤ j ∧ j < i + l.length := by
  intro l
  induction l with
  | nil => intro d i j h; simp [commaIdxs] at h
  | cons c rest ih =>
      intro d i j h
      unfold commaIdxs at h
      split at h
      · have := ih _ _ _ h
        simp only [List.length_cons]
        omega
      · split at h
        · have := ih _ _ _ h
          simp only [List.length_cons]
          omega
        · split at h
          · rcases List.mem_cons.mp h with rfl | h1
            · simp only [List.length_cons]
              omega
            · have := ih _ _ _ h1
              simp only [List.length_cons]
              omega
          · have := ih _ _ _ h
            simp only [List.length_cons]
            omega

theorem commaIdxs_pairwise :
    ∀ (l : List Char) (d : Int) (i : Nat),
      (commaIdxs d i l).Pairwise (· < ·) := by
  intro l
  induction l with
  | nil => intro d i; simp [commaIdxs]
  | cons c rest ih =>
      intro d i
      unfold commaIdxs
      split
      · exact ih _ _
      · split
        · exact ih _ _
        · split
          · refine List.Pairwise.cons ?_ (ih _ _)
            intro j hj
            have := commaIdxs_bounds rest _ _ _ hj
            omega
          · exact ih _ _

theorem segsFromIdxs_isSome {inside : List Char}
    (hascii : ∀ c ∈ inside, c.toNat < 128) :
    ∀ (idxs : List Nat) (lastPos : Nat),
      (∀ j ∈ idxs, lastPos ≤ j ∧ j < inside.length) →
      idxs.Pairwise (· < ·) → lastPos ≤ inside.length →
      ∃ segs, segsFromIdxs inside idxs lastPos = some segs
        ∧ ∀ s ∈ segs, (∀ c ∈ s, c.toNat < 128) ∧ s.length ≤ inside.length := by
  intro idxs
  induction idxs with
  | nil =>
      intro lastPos _ _ hLP
      unfold segsFromIdxs
      rw [utf8Len_ascii hascii, byteSlice_ascii hascii,
        if_pos ⟨hLP, le_refl _⟩]
      refine ⟨_, rfl, ?_⟩
      intro s hs
      have hseg : s = trimL ((inside.drop lastPos).take (inside.length - lastPos)) := by
        by_cases he : trimL ((inside.drop lastPos).take (inside.length - lastPos)) = []
        · rw [if_pos he] at hs
          simp at hs
        · rw [if_neg he] at hs
          simpa using hs
      subst hseg
      constructor
      · intro c hc
        exact hascii c (List.drop_subset _ _
          (List.take_subset _ _ ((trimL_sublist _).subset hc)))
      · have h1 := (trimL_sublist ((inside.drop lastPos).take (inside.length - lastPos))).length_le
        have h2 := (List.take_sublist (inside.length - lastPos) (inside.drop lastPos)).length_le
        have h3 := (List.drop_sublist lastPos inside).length_le
        omega
  | cons i rest ih =>
      intro lastPos hb hpw hLP
      have hbi := hb i (by simp)
      rcases List.pairwise_cons.mp hpw with ⟨hlt_all, hpw2⟩
      obtain ⟨segs', hsegs', hprops⟩ := ih (i + 1)
        (fun j hj => ⟨by have := hlt_all j hj; omega, (hb j (by simp [hj])).2⟩)
        hpw2 (by omega)
      have hslice : byteSlice inside lastPos i
          = some ((inside.drop lastPos).take (i - lastPos)) := by
        rw [byteSlice_ascii hascii, if_pos ⟨hbi.1, by omega⟩]
      unfold segsFromIdxs
      simp only [hslice, hsegs', Option.map_some]
      refine ⟨_, rfl, ?_⟩
      intro s hs
      rcases List.mem_cons.mp hs with rfl | hs
      · constructor
        · intro c hc
          exact hascii c (List.drop_subset _ _
            (List.take_subset _ _ ((trimL_sublist _).subset hc)))
        · have h1 := (trimL_sublist ((inside.drop lastPos).take (i - lastPos))).length_le
          have h2 := (List.take_sublist (i - lastPos) (inside.drop lastPos)).length_le
          have h3 := (List.drop_sublist lastPos inside).length_le
          omega
      · exact hprops s hs

theorem fold_extract_isSome (m : Nat) :
    ∀ (segs : List (List Char)) (acc : List (List Char)),
      (∀ s ∈ segs, (extractFuel m s).isSome) →
      (segs.foldl
        (fun acc? sub =>
          match acc?, extractFuel m sub with
          | some acc, some deeper => some (acc ++ deeper)
          | _, _ => none)
        (some acc)).isSome := by
  intro segs
  induction segs with
  | nil => intro acc _; simp
  | cons s ss ih =>
      intro acc hall
      obtain ⟨d, hd⟩ := Option.isSome_iff_exists.mp (hall s (by simp))
      rw [List.foldl_cons]
      simp only [hd]
      exact ih (acc ++ d) (fun s2 hs2 => hall s2 (by simp [hs2]))

theorem extractFuel_isSome :
    ∀ (n : Nat) (l : List Char), (∀ c ∈ l, c.toNat < 128) →
      l.length + 1 ≤ n → (extractFuel n l).isSome := by
  intro n
  induction n using Nat.strong_induction_on with
  | _ n ih =>
      intro l hl hn
      obtain ⟨m, rfl⟩ : ∃ m, n = m + 1 := ⟨n - 1, by omega⟩
      rw [extractFuel_succ]
      have hunwrap : (unwrap_type l).isSome := by
        unfold unwrap_type
        exact uw_isSome _ true l hl (by simp)
      cases hf : findLtByte l with
      | none =>
          simp only [hf]
          obtain ⟨u, hu⟩ := Option.isSome_iff_exists.mp hunwrap
          simp [hu]
      | some start =>
          obtain ⟨pre, tail, hpre, hprelt, hstart⟩ := findLtByte_spec hf
          have hpreascii : ∀ c ∈ pre, c.toNat < 128 := by
            intro c hc
            exact hl c (by rw [hpre]; exact List.mem_append_left _ hc)
          have hstart2 : start = pre.length := by
            rw [hstart, utf8Len_ascii hpreascii]
          subst hstart2
          have hlen : l.length = pre.length + 1 + tail.length := by
            rw [hpre]
            simp
            omega
          have hguard : ¬ (l.length < pre.length + 1) := by omega
          have hdrop : l.drop (pre.length + 1) = tail := by
            rw [hpre, show pre ++ '<' :: tail = (pre ++ ['<']) ++ tail by simp,
              show pre.length + 1 = (pre ++ ['<']).length by simp]
            exact List.drop_left ..
          have hk : pre.length + 1 + (scanMatch 0 tail).getD 0 ≤ l.length := by
            cases hs : scanMatch 0 tail with
            | none => simp; omega
            | some j =>
                have := scanMatch_some_lt tail 0 j hs
                simp
                omega
          have hslice : byteSlice l (pre.length + 1)
              (pre.length + 1 + (scanMatch 0 (l.drop (pre.length + 1))).getD 0)
              = some ((l.drop (pre.length + 1)).take
                  ((scanMatch 0 tail).getD 0)) := by
            rw [hdrop, byteSlice_ascii hl, if_pos ⟨by omega, hk⟩,
              show pre.length + 1 + (scanMatch 0 tail).getD 0 - (pre.length + 1)
                = (scanMatch 0 tail).getD 0 by omega, hdrop]
          set inside := (l.drop (pre.length + 1)).take ((scanMatch 0 tail).getD 0)
            with hinside
          have hinascii : ∀ c ∈ inside, c.toNat < 128 := by
            intro c hc
            exact hl c (List.drop_subset _ l (List.take_subset _ _ hc))
          have hinlen : inside.length < l.length := by
            have h1 : inside.length ≤ (l.drop (pre.length + 1)).length :=
              (List.take_sublist ..).length_le
            rw [List.length_drop] at h1
            omega
          obtain ⟨segs, hsegs, hprops⟩ := segsFromIdxs_isSome hinascii
            (commaIdxs 0 0 inside) 0
            (fun j hj => by
              have := commaIdxs_bounds inside 0 0 j hj
              omega)
            (commaIdxs_pairwise inside 0 0) (by omega)
          have hsplit : splitSegs inside = some segs := hsegs
          simp only [hf, if_neg hguard, hslice, hsplit]
          cases segs with
          | nil =>
              obtain ⟨u, hu⟩ := Option.isSome_iff_exists.mp hunwrap
              simp [hu]
          | cons s ss =>
              apply fold_extract_isSome
              intro s2 hs2
              have hp := hprops s2 hs2
              exact ih m (by omega) s2 hp.1 (by omega)

/-! ## Claim C9 (no-panic robustness) -/

/-- C9: the claim asserts that for EVERY input string the Unwrapper and
Splitter never fail the run.  It fails for non-ASCII input: `unwrap_type`
computes the end of the generic argument as byte index `start + 1` plus a
CHAR count, so on `Vec<é>` the slice `result[start + 1..end]` falls inside
the two-byte character `é` and panics (modelled by `none`); likewise
`extract_all_inner_types` indexes its char vector with a byte index and
panics on `ééé<A>`. -/
theorem C9_counterexample :
    unwrap_type (strL "Vec<é>") = none
    ∧ extract_all_inner_types (strL "ééé<A>") = none := by
  constructor <;> decide

/-- C9 (amended): for every input made of single-byte (ASCII) characters
— including empty strings and unbalanced angle brackets — the Unwrapper
and the Splitter return a best-effort result and never panic, and
`unwrap("") = ""`; inputs with multibyte characters can panic. -/
theorem C9_amended :
    (∀ l : List Char, (∀ c ∈ l, c.toNat < 128) → (unwrap_type l).isSome)
    ∧ (∀ l : List Char, (∀ c ∈ l, c.toNat < 128) →
        (extract_all_inner_types l).isSome)
    ∧ unwrap_type [] = some [] := by
  refine ⟨?_, ?_, by decide⟩
  · intro l hl
    unfold unwrap_type
    exact uw_isSome _ true l hl (by simp)
  · intro l hl
    unfold extract_all_inner_types
    exact extractFuel_isSome _ l hl (le_refl _)

/-- C9 (witness): the amended statement applied at the unbalanced inputs
`Vec<` and `A<B`, which are handled without panicking. -/
theorem C9_amended_witness :
    (unwrap_type (strL "Vec<")).isSome
    ∧ (extract_all_inner_types (strL "A<B")).isSome :=
  ⟨C9_amended.1 (strL "Vec<") (by decide),
   C9_amended.2.1 (strL "A<B") (by decide)⟩

/-! ## Claim C6 (generic argument splitter) -/

/-- C6: the Splitter flattens nested generics into the flat list of leaf
names — `extract_all_inner_types` on `HashMap<A, Vec<B>>` yields exactly
`["A", "B"]` — and on a plain type with no `<` at all it returns the
one-element list holding the unwrapped leaf name. -/
theorem C6_splitter :
    extract_all_inner_types (strL "HashMap<A, Vec<B>>")
      = some [strL "A", strL "B"]
    ∧ ∀ (ty leaf : List Char), '<' ∉ ty → unwrap_type ty = some leaf →
        extract_all_inner_types ty = some [leaf] := by
  constructor
  · decide
  · intro ty leaf hlt hu
    have hf : findLtByte ty = none := findLtByte_eq_none hlt
    unfold extract_all_inner_types
    rw [extractFuel_succ]
    simp only [hf, hu]

/-- C6 (witness): the plain-type clause applied at `PlainType`. -/
theorem C6_splitter_witness :
    extract_all_inner_types (strL "PlainType") = some [strL "PlainType"] :=
  C6_splitter.2 (strL "PlainType") (strL "PlainType") (by decide) (by decide)

/-! ## Claim C1 (cardinality mode) -/

/-- C1: the claim asserts that in cardinality mode a field
`profile: Option<Profile>` on `User` (with `Profile` in the catalog) yields
an edge labelled one-to-one.  It does not: `is_collection_type` lists
`Option` among the collections, so the sticky collection flag is raised and
`get_field_relationship` answers with the one-to-many marker `||--o{`
(the source's own comments name `||--o{` one-to-many and `||--||`
one-to-one). -/
theorem C1_counterexample :
    get_field_relationship (some (strL "profile"))
      (synPath1 (strL "Option")
        (TyList.cons (synPath1 (strL "Profile") TyList.nil) TyList.nil))
      [strL "User", strL "Profile", strL "Item"]
      = some (strL "profile", strL "Profile", strL "||--o\x7b")
    ∧ strL "||--o\x7b" ≠ strL "||--||" := by
  constructor
  · have h : extractTypesRec
        (synPath1 (strL "Option")
          (TyList.cons (synPath1 (strL "Profile") TyList.nil) TyList.nil)) [] false
        = ([strL "Profile"], true) := by
      simp [synPath1, extractTypesRec, extractPath, extractTypesList,
        is_collection_type, strL]
    unfold get_field_relationship extract_types_from_type
    rw [h]
    decide
  · decide

/-- C1 (amended): `Option` is classified as a collection by
`is_collection_type`, so BOTH fields of the scenario produce a single edge
with the one-to-many marker `||--o{`: `profile: Option<Profile>` yields
`(User, one-to-many, Profile)` and `items: Vec<Item>` yields
`(User, one-to-many, Item)`.  The exactly-one-edge-per-field part of the
claim holds. -/
theorem C1_amended :
    extract_struct_relationships
      [⟨strL "User",
        [(some (strL "profile"),
          synPath1 (strL "Option")
            (TyList.cons (synPath1 (strL "Profile") TyList.nil) TyList.nil)),
         (some (strL "items"),
          synPath1 (strL "Vec")
            (TyList.cons (synPath1 (strL "Item") TyList.nil) TyList.nil))]⟩,
       ⟨strL "Profile", []⟩, ⟨strL "Item", []⟩]
      [strL "User", strL "Profile", strL "Item"]
      = [⟨strL "User", strL "profile", strL "Profile", strL "||--o\x7b"⟩,
         ⟨strL "User", strL "items", strL "Item", strL "||--o\x7b"⟩] := by
  have h1 : extractTypesRec
      (synPath1 (strL "Option")
        (TyList.cons (synPath1 (strL "Profile") TyList.nil) TyList.nil)) [] false
      = ([strL "Profile"], true) := by
    simp [synPath1, extractTypesRec, extractPath, extractTypesList,
      is_collection_type, strL]
  have h2 : extractTypesRec
      (synPath1 (strL "Vec")
        (TyList.cons (synPath1 (strL "Item") TyList.nil) TyList.nil)) [] false
      = ([strL "Item"], true) := by
    simp [synPath1, extractTypesRec, extractPath, extractTypesList,
      is_collection_type, strL]
  have g1 : get_field_relationship (some (strL "profile"))
      (synPath1 (strL "Option")
        (TyList.cons (synPath1 (strL "Profile") TyList.nil) TyList.nil))
      [strL "User", strL "Profile", strL "Item"]
      = some (strL "profile", strL "Profile", strL "||--o\x7b") := by
    unfold get_field_relationship extract_types_from_type
    rw [h1]
    decide
  have g2 : get_field_relationship (some (strL "items"))
      (synPath1 (strL "Vec")
        (TyList.cons (synPath1 (strL "Item") TyList.nil) TyList.nil))
      [strL "User", strL "Profile", strL "Item"]
      = some (strL "items", strL "Item", strL "||--o\x7b") := by
    unfold get_field_relationship extract_types_from_type
    rw [h2]
    decide
  simp [extract_struct_relationships, g1, g2]

/-! ## Claim C2 (edge emitter) -/

/-- C2: the claim asserts the edge emitter deduplicates and sorts, making
the output text invariant under permutation of the inserted edges.  The
connections.rs emitter does neither: permuting two distinct edges permutes
the output lines, and a duplicated edge is printed twice. -/
theorem C2_counterexample :
    connectionsOutput [(strL "A", strL "has", strL "B"), (strL "B", strL "has", strL "A")]
      ≠ connectionsOutput [(strL "B", strL "has", strL "A"), (strL "A", strL "has", strL "B")]
    ∧ connectionsOutput [(strL "A", strL "has", strL "B"), (strL "A", strL "has", strL "B")]
      ≠ connectionsOutput [(strL "A", strL "has", strL "B")] := by
  constructor <;> decide

/-- C2 (amended): only the class_diagram.rs variant deduplicates, through
its `HashSet<Relationship>`: the relationship collection it extracts never
holds two identical (from, to, relationship_type) triples.  Neither variant
sorts: connections.rs emits its `Vec` in insertion order without
deduplication, so the emitted text is not permutation invariant. -/
theorem C2_amended (structs : List StructInfo) (enumNames : List (List Char)) :
    (extract_relationships structs enumNames).Nodup := by
  unfold extract_relationships
  apply nodup_foldl_of_step
  · intro acc s hacc
    apply nodup_foldl_of_step
    · intro acc2 f hacc2
      simp only [fieldRelationships]
      split
      · exact nodup_insert1 hacc2 _
      · split
        · apply nodup_foldl_of_step
          · intro acc3 g hacc3
            split
            · exact nodup_insert1 hacc3 _
            · exact hacc3
          · apply nodup_insert1
            split
            · exact nodup_insert1 hacc2 _
            · exact hacc2
        · split
          · exact nodup_insert1 hacc2 _
          · exact hacc2
    · exact hacc
  · exact List.nodup_nil

/-! ## Claim C4 (function-return variant) -/

/-- C4: the claim asserts a method's declared return type is treated
exactly like a field type in direct-match mode (all leaf names extracted,
one edge per catalog-member leaf).  It is not: the return type goes through
the single-leaf `unwrap_type`, so for `fn lookup() -> HashMap<A, B>;` with
both `A` and `B` in the catalog the code emits no edge at all (the
unwrapped leaf is the literal text `A, B`), while the field treatment of
the same type emits two; and a method named `new` is skipped entirely even
though its return type is in the catalog. -/
theorem C4_counterexample :
    deriveMethodEdges (strL "S") (strL "lookup") (strL "HashMap<A, B>")
      [strL "A", strL "B"] = some []
    ∧ deriveFieldEdges (strL "S") (strL "HashMap<A, B>") [strL "A", strL "B"]
        = some [(strL "S", strL "has", strL "A"), (strL "S", strL "has", strL "B")]
    ∧ deriveMethodEdges (strL "S") (strL "new") (strL "Vec<A>") [strL "A"] = some [] := by
  refine ⟨by decide, by decide, by decide⟩

/-- C4 (amended): for an impl-block method not named `new` with a non-empty
declared return type, the deriver applies the single-leaf Unwrapper
(`unwrap_type`, not the all-leaves Splitter) to the return type and emits
exactly one edge `(source, method_name, leaf)` when the unwrapped leaf is a
catalog member and no edge otherwise; in particular
`fn find_order() -> Option<Order>;` on `User` with catalog
`{User, Order}` yields exactly `(User, find_order, Order)`. -/
theorem C4_amended :
    (∀ (s fn ret : List Char) (known : List (List Char)) (leaf : List Char),
        fn ≠ strL "new" → ret ≠ [] → unwrap_type ret = some leaf →
        deriveMethodEdges s fn ret known
          = some (if leaf ∈ known then [(s, fn, leaf)] else []))
    ∧ deriveMethodEdges (strL "User") (strL "find_order") (strL "Option<Order>")
        [strL "User", strL "Order"]
        = some [(strL "User", strL "find_order", strL "Order")] := by
  constructor
  · intro s fn ret known leaf hfn hret hu
    unfold deriveMethodEdges
    rw [if_neg hfn, if_neg hret, hu]
  · decide

/-- C4 (witness): the amended statement applied at the concrete scenario. -/
theorem C4_amended_witness :
    deriveMethodEdges (strL "User") (strL "find_order") (strL "Option<Order>")
      [strL "User", strL "Order"]
      = some (if strL "Order" ∈ [strL "User", strL "Order"]
          then [(strL "User", strL "find_order", strL "Order")] else []) :=
  C4_amended.1 (strL "User") (strL "find_order") (strL "Option<Order>")
    [strL "User", strL "Order"] (strL "Order") (by decide) (by decide) (by decide)

/-! ## Claim C5 (direct-match mode) -/

/-- C5: in direct-match mode a field contributes exactly one `has` edge per
extracted leaf name that is a catalog member — the pushed edge list equals
the filtered-and-mapped leaf list — and the concrete scenario holds: with
catalog `{User, Order}`, field `orders: Vec<Order>` on `User` yields
exactly the edge `(User, has, Order)`. -/
theorem C5_direct_match :
    (∀ (s ft : List Char) (known : List (List Char)) (types : List (List Char)),
        extract_all_inner_types (trimL ft) = some types →
        deriveFieldEdges s ft known
          = some ((types.filter (fun t => t ∈ known)).map
              (fun t => (s, strL "has", t))))
    ∧ deriveFieldEdges (strL "User") (strL "Vec<Order>") [strL "User", strL "Order"]
        = some [(strL "User", strL "has", strL "Order")] := by
  constructor
  · intro s ft known types hty
    unfold deriveFieldEdges
    rw [hty]
    dsimp only
    rw [foldl_cond_append (fun t => t ∈ known) (fun t => (s, strL "has", t))]
    simp
  · decide

/-- C5 (witness): the universal part applied at the concrete scenario. -/
theorem C5_direct_match_witness :
    deriveFieldEdges (strL "User") (strL "Vec<Order>") [strL "User", strL "Order"]
      = some (([strL "Order"].filter
          (fun t => t ∈ [strL "User", strL "Order"])).map
            (fun t => (strL "User", strL "has", t))) :=
  C5_direct_match.1 (strL "User") (strL "Vec<Order>") [strL "User", strL "Order"]
    [strL "Order"] (by decide)

/-! ## Claim C7 (typed-label mode) -/

/-- C7: in typed-label mode, with catalog `{User, Order}`, the field
`orders: Vec<Order>` on `User` yields exactly the two edges
`(User, uses, Vec)` and `(User, contains, Order)`; the `uses` edge for the
designated wrapper `Vec` appears even when no generic argument is in the
catalog (second conjunct), and no `has` edge is produced. -/
theorem C7_typed_label :
    extract_relationships
      [⟨strL "User", [(strL "orders", strL "Vec<Order>")]⟩, ⟨strL "Order", []⟩] []
      = [⟨strL "User", strL "Vec", strL "uses"⟩,
         ⟨strL "User", strL "Order", strL "contains"⟩]
    ∧ extract_relationships [⟨strL "User", [(strL "tags", strL "Vec<String>")]⟩] []
        = [⟨strL "User", strL "Vec", strL "uses"⟩] := by
  constructor <;> decide

/-! ## Claim C10 (diagram.rs substring relationships) -/

/-- C10: in diagram.rs `generate_mermaid`, the line `A --> B : has` is
emitted if and only if `B`'s name occurs as a substring of the raw type
string of some field of `A` — no unwrapping is applied — and in particular
the entity name `Order` occurring inside the longer identifier `OrderId`
still produces an edge. -/
theorem C10_substring_relationships :
    (∀ (structs : List DStructDef) (line : List Char),
        line ∈ generateRelLines structs ↔
          ∃ sd ∈ structs, ∃ f ∈ sd.fields, ∃ os ∈ structs,
            os.name <:+: f.2 ∧ line = dRelLine sd.name os.name)
    ∧ dRelLine (strL "Cart") (strL "Order")
        ∈ generateRelLines
            [⟨strL "Order", []⟩, ⟨strL "Cart", [(strL "id", strL "OrderId")]⟩] := by
  constructor
  · intro structs line
    unfold generateRelLines
    rw [mem_foldl_of_step _
      (fun sd b => ∃ f ∈ sd.fields, ∃ os ∈ structs,
        os.name <:+: f.2 ∧ b = dRelLine sd.name os.name)]
    · simp
    · intro acc sd b
      rw [mem_foldl_of_step _
        (fun f b => ∃ os ∈ structs, os.name <:+: f.2 ∧ b = dRelLine sd.name os.name)]
      · intro acc2 f b2
        rw [mem_foldl_of_step _
          (fun os b3 => os.name <:+: f.2 ∧ b3 = dRelLine sd.name os.name)]
        intro acc3 os b3
        by_cases hc : containsSub f.2 os.name
        · rw [if_pos hc, mem_insert1]
          simp [(containsSub_iff _ _).mp hc]
        · rw [if_neg hc]
          have : ¬ os.name <:+: f.2 := fun hi => hc ((containsSub_iff _ _).mpr hi)
          simp [this]
  · decide

end CargoInvoke
